import Mathlib

/-!
# Verification of the Steam-LIO odometry engine

A shallow embedding, in Lean 4, of the estimation engine implemented in
`steam_icp/src/odometry/steam_lio.cpp`, together with theorems settling a
list of behavioural claims about it.

Modelling conventions:
* IEEE doubles are modelled by `ℚ` (exact arithmetic); the two
  `std::numeric_limits<double>` constants that the source manipulates are
  embedded as their exact rational values.
* `std::vector` indexing is total: out-of-range access is an explicit error
  outcome of the embedded function (the C++ source would have undefined
  behaviour there).
* Calls into the external `steam` / `Eigen` / `lgmath` libraries (solver,
  eigendecomposition, GP interpolation) are not code of this repository;
  where a claim depends on such a result the embedded function receives it
  as an explicit argument, constrained by hypotheses stating the algebraic
  contract of the library call.
-/

set_option maxHeartbeats 1000000

namespace SteamIcp

/-- A 3-vector with exact rational coordinates, modelling `Eigen::Vector3d`. -/
structure V3 where
  x : ℚ
  y : ℚ
  z : ℚ
  deriving DecidableEq

instance : Zero V3 := ⟨⟨0, 0, 0⟩⟩

instance : Add V3 := ⟨fun a b => ⟨a.x + b.x, a.y + b.y, a.z + b.z⟩⟩

instance : Sub V3 := ⟨fun a b => ⟨a.x - b.x, a.y - b.y, a.z - b.z⟩⟩

/-- Scalar multiplication on `V3`. -/
def V3.smul (c : ℚ) (v : V3) : V3 := ⟨c * v.x, c * v.y, c * v.z⟩

/-- Euclidean inner product on `V3`. -/
def V3.dot (a b : V3) : ℚ := a.x * b.x + a.y * b.y + a.z * b.z

/-- The subset of the fields of `Point3D` (`steam_icp/point.hpp`) that the
operations verified here read or write: the raw sensor-frame coordinate, the
world-frame coordinate `pt`, the absolute timestamp and the normalized
in-frame timestamp.  The remaining fields (beam id, radial velocity /
intensity scalar) are never consulted by the embedded functions. -/
structure Point3D where
  raw_pt : V3
  pt : V3
  timestamp : ℚ
  alpha_timestamp : ℚ
  deriving DecidableEq

/-- Truncation of a rational toward zero, modelling the C++ cast of a
`double` to a signed integer type (`static_cast<short>`); on in-range values
the cast is exactly truncation toward zero. -/
def ratTrunc (q : ℚ) : ℤ := if 0 ≤ q then ⌊q⌋ else -⌊-q⌋

/-- Integer voxel key of a world point, as computed in `sub_sample_frame`
(steam_lio.cpp, lines 28-30): signed truncation of `coordinate / voxel
size`, coordinate-wise, on the `pt` field. -/
def voxelKeyOf (p : V3) (s : ℚ) : ℤ × ℤ × ℤ :=
  (ratTrunc (p.x / s), ratTrunc (p.y / s), ratTrunc (p.z / s))

/-! ## `sub_sample_frame` (steam_lio.cpp lines 25-43)

The C++ groups the points of the frame into an `unordered_map` keyed by
voxel, each bucket keeping the points in insertion order, and then emits
`bucket[0]` — the first point binned into the voxel — for every non-empty
bucket.  The embedding keeps, for every key, the first point binned into
it, in order of first key appearance (the C++ bucket iteration order is
unspecified; the claims examined here are order-insensitive). -/

/-- One step of grid building: bin a point under its key unless the key is
already present (only the first point of a bucket is ever emitted, so later
points of an existing bucket are irrelevant to the output). -/
def gridInsert (g : List ((ℤ × ℤ × ℤ) × Point3D)) (k : ℤ × ℤ × ℤ) (p : Point3D) :
    List ((ℤ × ℤ × ℤ) × Point3D) :=
  if k ∈ g.map Prod.fst then g else g ++ [(k, p)]

/-- The voxel grid built by the loop at steam_lio.cpp lines 27-32,
restricted to the information the function's output depends on (the first
point of every bucket). -/
def buildGrid (frame : List Point3D) (size_voxel : ℚ) : List ((ℤ × ℤ × ℤ) × Point3D) :=
  frame.foldl (fun g p => gridInsert g (voxelKeyOf p.pt size_voxel) p) []

/-- `sub_sample_frame` (steam_lio.cpp lines 25-43): replace the frame by one
point per non-empty voxel, the first point binned into that voxel. -/
def sub_sample_frame (frame : List Point3D) (size_voxel : ℚ) : List Point3D :=
  (buildGrid frame size_voxel).map Prod.snd

/-- Reference (spec-side) description of the grid: the first point of each
key, listed in order of first key appearance. -/
def pairFirstPerKey (key : Point3D → ℤ × ℤ × ℤ) : List Point3D → List ((ℤ × ℤ × ℤ) × Point3D)
  | [] => []
  | p :: rest =>
    (key p, p) :: pairFirstPerKey key (rest.filter fun q => decide (key q ≠ key p))
termination_by l => l.length
decreasing_by
  simp only [List.length_cons]
  exact Nat.lt_succ_of_le (List.length_filter_le _ _)

theorem pairFirstPerKey_nil (key : Point3D → ℤ × ℤ × ℤ) : pairFirstPerKey key [] = [] := by
  rw [pairFirstPerKey]

theorem pairFirstPerKey_cons (key : Point3D → ℤ × ℤ × ℤ) (p : Point3D) (rest : List Point3D) :
    pairFirstPerKey key (p :: rest)
      = (key p, p) :: pairFirstPerKey key (rest.filter fun q => decide (key q ≠ key p)) := by
  rw [pairFirstPerKey]

/-- The grid-building fold, started from an arbitrary partial grid `g`,
appends exactly the first point of every key not already present in `g`. -/
theorem buildGrid_go (s : ℚ) (frame : List Point3D) :
    ∀ g : List ((ℤ × ℤ × ℤ) × Point3D),
      frame.foldl (fun g p => gridInsert g (voxelKeyOf p.pt s) p) g
        = g ++ pairFirstPerKey (fun p => voxelKeyOf p.pt s)
            (frame.filter fun q => decide (voxelKeyOf q.pt s ∉ g.map Prod.fst)) := by
  induction frame with
  | nil => intro g; simp [pairFirstPerKey_nil]
  | cons p rest ih =>
    intro g
    by_cases hk : voxelKeyOf p.pt s ∈ g.map Prod.fst
    · have hg : gridInsert g (voxelKeyOf p.pt s) p = g := by simp [gridInsert, hk]
      have hfil : (p :: rest).filter (fun q => decide (voxelKeyOf q.pt s ∉ g.map Prod.fst))
          = rest.filter fun q => decide (voxelKeyOf q.pt s ∉ g.map Prod.fst) := by
        simp [List.filter_cons, hk]
      rw [List.foldl_cons, hg, hfil, ih g]
    · have hg : gridInsert g (voxelKeyOf p.pt s) p = g ++ [(voxelKeyOf p.pt s, p)] := by
        simp [gridInsert, hk]
      have hfil : (p :: rest).filter (fun q => decide (voxelKeyOf q.pt s ∉ g.map Prod.fst))
          = p :: rest.filter fun q => decide (voxelKeyOf q.pt s ∉ g.map Prod.fst) := by
        simp [List.filter_cons, hk]
      rw [List.foldl_cons, hg, ih (g ++ [(voxelKeyOf p.pt s, p)]), hfil, pairFirstPerKey_cons]
      rw [List.append_assoc]
      refine congrArg (fun t => g ++ ((voxelKeyOf p.pt s, p) :: t)) ?_
      rw [List.filter_filter]
      refine congrArg (fun t => pairFirstPerKey (fun p => voxelKeyOf p.pt s) t) ?_
      refine List.filter_congr ?_
      intro q _
      simp only [List.map_append, List.map_cons, List.mem_append, decide_not, Bool.and_comm]
      by_cases h1 : voxelKeyOf q.pt s ∈ g.map Prod.fst <;>
        by_cases h2 : voxelKeyOf q.pt s = voxelKeyOf p.pt s <;> simp [h1, h2]

theorem buildGrid_eq (s : ℚ) (frame : List Point3D) :
    buildGrid frame s = pairFirstPerKey (fun p => voxelKeyOf p.pt s) frame := by
  have h := buildGrid_go s frame []
  simpa [buildGrid, List.filter_true] using h

/-- Every entry of the reference grid carries the key of its point, and its
point comes from the input list. -/
theorem pairFirstPerKey_mem (key : Point3D → ℤ × ℤ × ℤ) :
    ∀ (l : List Point3D) (e : (ℤ × ℤ × ℤ) × Point3D),
      e ∈ pairFirstPerKey key l → e.1 = key e.2 ∧ e.2 ∈ l
  | [], e => by simp [pairFirstPerKey_nil]
  | p :: rest, e => by
    rw [pairFirstPerKey_cons]
    intro h
    rcases List.mem_cons.mp h with h | h
    · subst h; exact ⟨rfl, List.mem_cons_self _ _⟩
    · have := pairFirstPerKey_mem key (rest.filter fun q => decide (key q ≠ key p)) e h
      exact ⟨this.1, List.mem_cons_of_mem _ (List.mem_of_mem_filter this.2)⟩
termination_by l => l.length
decreasing_by
  simp only [List.length_cons]
  exact Nat.lt_succ_of_le (List.length_filter_le _ _)

/-- No key appears twice among the entries of the reference grid. -/
theorem pairFirstPerKey_keys_nodup (key : Point3D → ℤ × ℤ × ℤ) :
    ∀ l : List Point3D, ((pairFirstPerKey key l).map Prod.fst).Nodup
  | [] => by simp [pairFirstPerKey_nil]
  | p :: rest => by
    rw [pairFirstPerKey_cons]
    refine List.nodup_cons.mpr ⟨?_, pairFirstPerKey_keys_nodup key _⟩
    intro hmem
    rcases List.mem_map.mp hmem with ⟨e, he, hfst⟩
    have h1 := pairFirstPerKey_mem key _ e he
    have h2 := (List.mem_filter.mp h1.2).2
    rw [h1.1] at hfst
    simp only [decide_not, ne_eq, Bool.not_eq_true', decide_eq_false_iff_not] at h2
    exact h2 hfst
termination_by l => l.length
decreasing_by
  simp only [List.length_cons]
  exact Nat.lt_succ_of_le (List.length_filter_le _ _)

/-- The reference grid has one entry per distinct key of the input. -/
theorem pairFirstPerKey_length (key : Point3D → ℤ × ℤ × ℤ) :
    ∀ l : List Point3D, (pairFirstPerKey key l).length = (l.map key).toFinset.card
  | [] => by simp [pairFirstPerKey_nil]
  | p :: rest => by
    rw [pairFirstPerKey_cons]
    have ih := pairFirstPerKey_length key (rest.filter fun q => decide (key q ≠ key p))
    have hT : ((rest.filter fun q => decide (key q ≠ key p)).map key).toFinset
        = (rest.map key).toFinset.erase (key p) := by
      ext a
      simp only [List.mem_toFinset, List.mem_map, Finset.mem_erase]
      constructor
      · rintro ⟨q, hq, rfl⟩
        have h2 := (List.mem_filter.mp hq).2
        simp only [decide_not, ne_eq, Bool.not_eq_true', decide_eq_false_iff_not] at h2
        exact ⟨h2, ⟨q, List.mem_of_mem_filter hq, rfl⟩⟩
      · rintro ⟨hne, q, hq, rfl⟩
        exact ⟨q, List.mem_filter.mpr ⟨hq, by simpa using hne⟩, rfl⟩
    rw [List.length_cons, ih, hT, List.map_cons, List.toFinset_cons]
    by_cases hp : key p ∈ (rest.map key).toFinset
    · rw [Finset.insert_eq_self.mpr hp]
      exact Finset.card_erase_add_one hp
    · rw [Finset.erase_eq_of_not_mem hp, Finset.card_insert_of_not_mem hp]
termination_by l => l.length
decreasing_by
  simp only [List.length_cons]
  exact Nat.lt_succ_of_le (List.length_filter_le _ _)

theorem find?_filter_of_imp (p r : Point3D → Bool) (h : ∀ x, p x = true → r x = true) :
    ∀ l : List Point3D, (l.filter r).find? p = l.find? p := by
  intro l
  induction l with
  | nil => rfl
  | cons a l ih =>
    by_cases hr : r a = true
    · rw [List.filter_cons_of_pos hr]
      by_cases hp : p a = true
      · rw [List.find?_cons_of_pos _ hp, List.find?_cons_of_pos _ hp]
      · rw [List.find?_cons_of_neg _ (by simpa using hp), List.find?_cons_of_neg _ (by simpa using hp)]
        exact ih
    · have hp : ¬ p a = true := fun hpa => hr (h a hpa)
      rw [List.filter_cons_of_neg (by simpa using hr), List.find?_cons_of_neg _ (by simpa using hp)]
      exact ih

/-- Each grid entry's point is the first point of the input with that key. -/
theorem pairFirstPerKey_find (key : Point3D → ℤ × ℤ × ℤ) :
    ∀ (l : List Point3D) (e : (ℤ × ℤ × ℤ) × Point3D), e ∈ pairFirstPerKey key l →
      l.find? (fun q => decide (key q = e.1)) = some e.2
  | [], e => by simp [pairFirstPerKey_nil]
  | p :: rest, e => by
    rw [pairFirstPerKey_cons]
    intro h
    rcases List.mem_cons.mp h with h | h
    · subst h
      exact List.find?_cons_of_pos _ (by simp)
    · have h1 := pairFirstPerKey_mem key _ e h
      have hne : key e.2 ≠ key p := by
        have h2 := (List.mem_filter.mp h1.2).2
        simpa using h2
      have ih := pairFirstPerKey_find key (rest.filter fun q => decide (key q ≠ key p)) e h
      have hstep : (p :: rest).find? (fun q => decide (key q = e.1))
          = rest.find? fun q => decide (key q = e.1) := by
        refine List.find?_cons_of_neg _ ?_
        simp only [decide_eq_true_eq]
        rw [h1.1]
        exact fun hc => hne hc.symm
      rw [hstep, ← find?_filter_of_imp (fun q => decide (key q = e.1))
        (fun q => decide (key q ≠ key p)) ?_ rest]
      · exact ih
      · intro x hx
        simp only [decide_eq_true_eq] at hx
        simp only [decide_eq_true_eq, ne_eq]
        rw [hx, h1.1]
        exact fun hc => hne hc
termination_by l => l.length
decreasing_by
  simp only [List.length_cons]
  exact Nat.lt_succ_of_le (List.length_filter_le _ _)

/-- Every key occurring in the input is represented in the reference grid. -/
theorem pairFirstPerKey_covers (key : Point3D → ℤ × ℤ × ℤ) :
    ∀ (l : List Point3D) (q : Point3D), q ∈ l →
      ∃ e ∈ pairFirstPerKey key l, e.1 = key q
  | [], q => by simp
  | p :: rest, q => by
    intro hq
    rw [pairFirstPerKey_cons]
    rcases List.mem_cons.mp hq with h | h
    · exact ⟨(key p, p), List.mem_cons_self _ _, by rw [h]⟩
    · by_cases hk : key q = key p
      · exact ⟨(key p, p), List.mem_cons_self _ _, hk.symm⟩
      · have hqf : q ∈ rest.filter fun r => decide (key r ≠ key p) :=
          List.mem_filter.mpr ⟨h, by simpa using hk⟩
        obtain ⟨e, he, hke⟩ := pairFirstPerKey_covers key _ q hqf
        exact ⟨e, List.mem_cons_of_mem _ he, hke⟩
termination_by l => l.length
decreasing_by
  simp only [List.length_cons]
  exact Nat.lt_succ_of_le (List.length_filter_le _ _)

/-- C8: for every input point list and positive voxel size,
`sub_sample_frame` returns exactly one point per distinct voxel key of the
input — namely the first point binned into each voxel — so its output size
is the number of distinct voxel keys of the input. -/
theorem subSampleFrame_one_point_per_voxel (frame : List Point3D) (s : ℚ) (hs : 0 < s) :
    (sub_sample_frame frame s).length = ((frame.map fun p => voxelKeyOf p.pt s).dedup).length
    ∧ ((sub_sample_frame frame s).map fun p => voxelKeyOf p.pt s).Nodup
    ∧ (∀ p ∈ sub_sample_frame frame s,
        frame.find? (fun q => decide (voxelKeyOf q.pt s = voxelKeyOf p.pt s)) = some p)
    ∧ ∀ q ∈ frame, ∃ p ∈ sub_sample_frame frame s, voxelKeyOf p.pt s = voxelKeyOf q.pt s := by
  have hgrid : sub_sample_frame frame s
      = (pairFirstPerKey (fun p => voxelKeyOf p.pt s) frame).map Prod.snd := by
    rw [sub_sample_frame, buildGrid_eq]
  refine ⟨?_, ?_, ?_, ?_⟩
  · rw [hgrid, List.length_map, pairFirstPerKey_length, List.card_toFinset]
  · rw [hgrid]
    have hmapeq : ((pairFirstPerKey (fun p => voxelKeyOf p.pt s) frame).map Prod.snd).map
        (fun p => voxelKeyOf p.pt s)
        = (pairFirstPerKey (fun p => voxelKeyOf p.pt s) frame).map Prod.fst := by
      rw [List.map_map]
      refine List.map_congr_left ?_
      intro e he
      exact ((pairFirstPerKey_mem _ frame e) he).1.symm
    rw [hmapeq]
    exact pairFirstPerKey_keys_nodup _ frame
  · intro p hp
    rw [hgrid] at hp
    rcases List.mem_map.mp hp with ⟨e, he, hsnd⟩
    have h1 := pairFirstPerKey_mem _ frame e he
    have h2 := pairFirstPerKey_find _ frame e he
    rw [← hsnd, ← h1.1]
    exact h2
  · intro q hq
    obtain ⟨e, he, hke⟩ := pairFirstPerKey_covers (fun p => voxelKeyOf p.pt s) frame q hq
    refine ⟨e.2, ?_, ?_⟩
    · rw [hgrid]; exact List.mem_map.mpr ⟨e, he, rfl⟩
    · rw [← ((pairFirstPerKey_mem _ frame e) he).1, hke]

/-- A two-voxel concrete frame: the first two points share voxel `(0,0,0)`
at voxel size 1, the third lands in voxel `(2,0,0)`. -/
def sampleFrameC8 : List Point3D :=
  [⟨⟨0, 0, 0⟩, ⟨1/2, 0, 0⟩, 0, 0⟩,
   ⟨⟨0, 0, 0⟩, ⟨1/4, 1/4, 0⟩, 1, 1⟩,
   ⟨⟨0, 0, 0⟩, ⟨2, 0, 0⟩, 2, 1⟩]

theorem subSampleFrame_one_point_per_voxel_witness :
    (0 : ℚ) < 1
    ∧ ((sub_sample_frame sampleFrameC8 1).length
        = ((sampleFrameC8.map fun p => voxelKeyOf p.pt 1).dedup).length
      ∧ ((sub_sample_frame sampleFrameC8 1).map fun p => voxelKeyOf p.pt 1).Nodup
      ∧ (∀ p ∈ sub_sample_frame sampleFrameC8 1,
          sampleFrameC8.find? (fun q => decide (voxelKeyOf q.pt 1 = voxelKeyOf p.pt 1)) = some p)
      ∧ ∀ q ∈ sampleFrameC8, ∃ p ∈ sub_sample_frame sampleFrameC8 1,
          voxelKeyOf p.pt 1 = voxelKeyOf q.pt 1) :=
  ⟨by norm_num, subSampleFrame_one_point_per_voxel sampleFrameC8 1 (by norm_num)⟩

/-! ## `initializeTimestamp` (steam_lio.cpp lines 292-304)

The C++ initializes the running minimum with
`std::numeric_limits<double>::max()` (the largest finite double) and the
running maximum with `std::numeric_limits<double>::min()` — which in C++ is
the smallest positive normalized double, not the most negative one.  Both
constants are embedded by their exact rational values. -/

/-- `std::numeric_limits<double>::max()` = (2 − 2⁻⁵²) · 2¹⁰²³ = (2⁵³ − 1) · 2⁹⁷¹. -/
def DBL_MAX : ℚ := (2 ^ 53 - 1) * 2 ^ 971

/-- `std::numeric_limits<double>::min()` = 2⁻¹⁰²², the smallest positive
normalized double (a tiny positive number, not a lower bound of the type). -/
def DBL_MIN : ℚ := 1 / 2 ^ 1022

/-- `initializeTimestamp` (steam_lio.cpp lines 292-304): scan the frame's
points, tracking `min_timestamp` (initialized to `DBL_MAX`) and
`max_timestamp` (initialized to `DBL_MIN`), and return
(begin_timestamp, end_timestamp, eval_time). -/
def initializeTimestamp (points : List Point3D) (t_eval : ℚ) : ℚ × ℚ × ℚ :=
  let mm := points.foldl
    (fun (acc : ℚ × ℚ) p =>
      (if p.timestamp < acc.1 then p.timestamp else acc.1,
       if p.timestamp > acc.2 then p.timestamp else acc.2))
    (DBL_MAX, DBL_MIN)
  (mm.1, mm.2, t_eval)

/-- A one-point frame whose only timestamp is −1. -/
def frameNegTs : List Point3D := [⟨⟨0, 0, 0⟩, ⟨0, 0, 0⟩, -1, 0⟩]

/-- C6 (code bug): on a non-empty frame whose timestamps are all negative
the appended frame's `end_timestamp` is *not* the maximum of the point
timestamps: because the running maximum starts at
`std::numeric_limits<double>::min()` = 2⁻¹⁰²² (a positive number) rather
than the lowest double, the comparison `timestamp > max_timestamp` never
fires and `end_timestamp` is left at 2⁻¹⁰²².  Concretely, for a frame whose
single point has timestamp −1 the code sets begin = −1 (the minimum, which
is computed correctly) and eval = t_eval, but end = 2⁻¹⁰²² ≠ −1. -/
theorem initializeTimestamp_negative_end_bug :
    (initializeTimestamp frameNegTs 7).1 = -1
    ∧ (initializeTimestamp frameNegTs 7).2.2 = 7
    ∧ (initializeTimestamp frameNegTs 7).2.1 = DBL_MIN
    ∧ (frameNegTs.map Point3D.timestamp).maximum = some (-1)
    ∧ DBL_MIN ≠ (-1 : ℚ) := by
  refine ⟨?_, rfl, ?_, ?_, ?_⟩
  · show (if (-1 : ℚ) < DBL_MAX then (-1 : ℚ) else DBL_MAX) = -1
    rw [if_pos (by rw [DBL_MAX]; norm_num)]
  · show (if (-1 : ℚ) > DBL_MIN then (-1 : ℚ) else DBL_MIN) = DBL_MIN
    rw [if_neg (by rw [DBL_MIN]; norm_num)]
  · rfl
  · rw [DBL_MIN]; norm_num

/-! ## The final sliding-window gate (steam_lio.cpp lines 1002-1013)

After the ICP outer loop the assembled cost terms are pushed into the
persistent `SlidingWindowFilter`; the code then throws a `runtime_error` if
the filter reports more than 100 variables or more than 100000 cost terms,
and only past those checks constructs the Gauss-Newton solver and calls
`optimize()`.  The counts are reported by the external filter; the gate is
embedded as a function of them. -/

/-- Fatal error exits of the embedded `icp`. -/
inductive FatalErr where
  | missingPrevScanEndVariable
  | imuStampNotWithinKnotTimes
  | midStampNotWithinKnotTimes
  | vectorIndexOutOfBounds
  | tooManyVariables
  | tooManyCostTerms
  deriving DecidableEq

/-- Lines 1004-1013: bounds check, then the final sliding-window solve.
`.ok ()` means the `GaussNewtonSolver` construction and `optimize()` call
were reached. -/
def finalSlidingWindowSolve (numVars numCostTerms : Nat) : Except FatalErr Unit :=
  if numVars > 100 then .error .tooManyVariables
  else if numCostTerms > 100000 then .error .tooManyCostTerms
  else .ok ()

/-- C7: the engine raises a hard fault before the final solve exactly when
the assembled sliding window holds more than 100 active variable groups or
more than 100000 active cost terms; otherwise the final sliding-window
solve proceeds. -/
theorem finalSlidingWindowSolve_bounds (numVars numCostTerms : Nat) :
    (finalSlidingWindowSolve numVars numCostTerms = .ok ()
        ↔ numVars ≤ 100 ∧ numCostTerms ≤ 100000)
    ∧ (numVars > 100 →
        finalSlidingWindowSolve numVars numCostTerms = .error .tooManyVariables)
    ∧ (numVars ≤ 100 → numCostTerms > 100000 →
        finalSlidingWindowSolve numVars numCostTerms = .error .tooManyCostTerms) := by
  refine ⟨?_, ?_, ?_⟩
  · constructor
    · intro h
      by_cases h1 : numVars > 100
      · simp [finalSlidingWindowSolve, h1] at h
      · by_cases h2 : numCostTerms > 100000
        · simp [finalSlidingWindowSolve, h1, h2] at h
        · exact ⟨Nat.le_of_not_lt h1, Nat.le_of_not_lt h2⟩
    · rintro ⟨h1, h2⟩
      simp [finalSlidingWindowSolve, Nat.not_lt.mpr h1, Nat.not_lt.mpr h2]
  · intro h1; simp [finalSlidingWindowSolve, h1]
  · intro h1 h2; simp [finalSlidingWindowSolve, Nat.not_lt.mpr h1, h2]

theorem finalSlidingWindowSolve_bounds_witness :
    finalSlidingWindowSolve 101 3 = .error .tooManyVariables :=
  (finalSlidingWindowSolve_bounds 101 3).2.1 (by decide)

/-! ## `initializeFrame` (steam_lio.cpp lines 329-353) and its determinism

The C++ declares `std::mt19937_64 g;` — a freshly *default-constructed*
generator with the standard-mandated default seed 5489 — and uses it for
both `std::shuffle` calls.  The generator is embedded below (seeding,
twist and tempering exactly as specified for `std::mt19937_64`); the
permutation `std::shuffle` derives from the generator's outputs is
implementation-defined in C++, so the embedding fixes one Fisher-Yates
refinement of it.  Either way the pipeline is a pure function of the input
frame: the `entropy` parameter below stands for any ambient randomness a
run might carry, and the source never consults it. -/

/-- Reduction of a `Nat` to a 64-bit word. -/
def word64 (n : Nat) : Nat := n % 2 ^ 64

/-- One step of the `std::mt19937_64` seeding recurrence:
xᵢ = 6364136223846793005 · (xᵢ₋₁ xor (xᵢ₋₁ ≫ 62)) + i (mod 2⁶⁴). -/
def mtMixSeed (prev i : Nat) : Nat :=
  word64 (6364136223846793005 * (prev ^^^ (prev >>> 62)) + i)

/-- The i-th word of the seeded `std::mt19937_64` state. -/
def mtSeedElem (seed : Nat) : Nat → Nat
  | 0 => word64 seed
  | i + 1 => mtMixSeed (mtSeedElem seed i) (i + 1)

/-- Full 312-word seeded state of `std::mt19937_64`. -/
def mt19937_64_init (seed : Nat) : List Nat := (List.range 312).map (mtSeedElem seed)

/-- `std::mt19937_64` generator state: the 312 words plus the read index. -/
structure Mt19937_64 where
  state : List Nat
  index : Nat
  deriving DecidableEq

/-- A default-constructed `std::mt19937_64` (default seed 5489). -/
def mt19937_64_default : Mt19937_64 := ⟨mt19937_64_init 5489, 312⟩

/-- The `std::mt19937_64` output tempering. -/
def mtTemper (y : Nat) : Nat :=
  let y1 := y ^^^ ((y >>> 29) &&& 0x5555555555555555)
  let y2 := y1 ^^^ (word64 (y1 <<< 17) &&& 0x71D67FFFEDA60000)
  let y3 := y2 ^^^ (word64 (y2 <<< 37) &&& 0xFFF7EEE000000000)
  y3 ^^^ (y3 >>> 43)

/-- The in-place twist of the 312-word state. -/
def mtTwist (st : List Nat) : List Nat :=
  (List.range 312).foldl
    (fun s i =>
      let x := (s.getD i 0 &&& 0xFFFFFFFF80000000) ||| (s.getD ((i + 1) % 312) 0 &&& 0x7FFFFFFF)
      let v := s.getD ((i + 156) % 312) 0 ^^^ (x >>> 1) ^^^
        (if x % 2 = 1 then 0xB5026F5AA96619E9 else 0)
      s.set i v)
    st

/-- Draw one tempered 64-bit output, twisting when the state is exhausted. -/
def mtNext (g : Mt19937_64) : Nat × Mt19937_64 :=
  if g.index ≥ 312 then
    let st := mtTwist g.state
    (mtTemper (st.getD 0 0), ⟨st, 1⟩)
  else
    (mtTemper (g.state.getD g.index 0), ⟨g.state, g.index + 1⟩)

/-- A bounded draw from the generator (stand-in for the
implementation-defined `std::uniform_int_distribution` reduction inside
`std::shuffle`). -/
def boundedDraw (g : Mt19937_64) (bound : Nat) : Nat × Mt19937_64 :=
  let yg := mtNext g
  (yg.1 % bound, yg.2)

/-- Exchange positions `i` and `j` of a list if both are in range. -/
def listSwap (l : List Point3D) (i j : Nat) : List Point3D :=
  match l.get? i, l.get? j with
  | some a, some b => (l.set i b).set j a
  | _, _ => l

/-- Fisher-Yates descent: positions i, i−1, …, 1, drawing j ≤ position. -/
def cppShuffleGo : Nat → List Point3D × Mt19937_64 → List Point3D × Mt19937_64
  | 0, p => p
  | i + 1, p =>
    let jg := boundedDraw p.2 (i + 2)
    cppShuffleGo i (listSwap p.1 (i + 1) jg.1, jg.2)

/-- `std::shuffle(frame.begin(), frame.end(), g)`: a Fisher-Yates pass
driven by the generator, returning the permuted list and the advanced
generator. -/
def cppShuffle (l : List Point3D) (g : Mt19937_64) : List Point3D × Mt19937_64 :=
  cppShuffleGo (l.length - 1) (l, g)

/-- `initializeFrame` (steam_lio.cpp lines 329-353): pick the voxel size by
the init regime, shuffle with a freshly default-constructed
`std::mt19937_64`, voxel-subsample, shuffle again with the same generator,
then re-seat every point's world coordinate from the begin/end pose guess.
The per-point placement (Eigen quaternion slerp of the motion guess, lines
344-350) is external math and is received as the function `place`; the
`entropy` parameter models ambient randomness, which the source ignores —
the generator is always built from the fixed default seed. -/
def initializeFrame (entropy : Nat) (place : Point3D → Point3D)
    (index_frame init_num_frames : Nat) (init_voxel_size voxel_size : ℚ)
    (const_frame : List Point3D) : List Point3D :=
  let sample_size := if index_frame < init_num_frames then init_voxel_size else voxel_size
  let s1 := cppShuffle const_frame mt19937_64_default
  let frame1 := sub_sample_frame s1.1 sample_size
  let s2 := cppShuffle frame1 s1.2
  s2.1.map place

/-- `grid_sampling` (steam_lio.cpp lines 46-58): copy the frame, voxel
subsample the copy, and return it as the keypoint list. -/
def grid_sampling (frame : List Point3D) (size_voxel_subsampling : ℚ) : List Point3D :=
  sub_sample_frame frame size_voxel_subsampling

/-- C10: two runs of the frame preprocessing on equal inputs and equal
prior engine state produce identical downsampled frames and identical
keypoint sets, whatever ambient entropy each run carries: the shuffles use
a freshly default-constructed `std::mt19937_64` (fixed seed 5489) on every
call, so the per-voxel representative selection is a pure deterministic
function of the input. -/
theorem initializeFrame_deterministic (e1 e2 : Nat) (place : Point3D → Point3D)
    (index_frame init_num_frames : Nat) (init_voxel_size voxel_size sample_voxel_size : ℚ)
    (const_frame : List Point3D) :
    initializeFrame e1 place index_frame init_num_frames init_voxel_size voxel_size const_frame
      = initializeFrame e2 place index_frame init_num_frames init_voxel_size voxel_size
          const_frame
    ∧ grid_sampling
        (initializeFrame e1 place index_frame init_num_frames init_voxel_size voxel_size
          const_frame) sample_voxel_size
      = grid_sampling
          (initializeFrame e2 place index_frame init_num_frames init_voxel_size voxel_size
            const_frame) sample_voxel_size :=
  ⟨rfl, rfl⟩

/-! ## `compute_neighborhood_distribution` (steam_lio.cpp lines 62-105)

The barycenter and the centered scatter matrix are computed by the source
itself and are embedded directly.  The eigendecomposition
(`Eigen::SelfAdjointEigenSolver`, eigenvalues in increasing order), the
norm used by `.normalized()` and the three `std::sqrt` results are
external library calls; the embedded function receives them bundled in a
`SpectralResult`, and the theorems constrain that bundle by the algebraic
contract of those calls. -/

theorem V3.ext_of (a b : V3) (hx : a.x = b.x) (hy : a.y = b.y) (hz : a.z = b.z) : a = b := by
  cases a; cases b; simp_all

theorem V3.add_def (a b : V3) : a + b = ⟨a.x + b.x, a.y + b.y, a.z + b.z⟩ := rfl

theorem V3.sub_def (a b : V3) : a - b = ⟨a.x - b.x, a.y - b.y, a.z - b.z⟩ := rfl

theorem V3.zero_def : (0 : V3) = ⟨0, 0, 0⟩ := rfl

theorem V3.zero_x : (0 : V3).x = 0 := rfl

theorem V3.zero_y : (0 : V3).y = 0 := rfl

theorem V3.zero_z : (0 : V3).z = 0 := rfl

theorem V3.mk_zero : (⟨0, 0, 0⟩ : V3) = 0 := rfl

/-- A 3×3 matrix of rationals, stored by rows. -/
structure M3 where
  r0 : V3
  r1 : V3
  r2 : V3
  deriving DecidableEq

/-- Matrix-vector product. -/
def M3.mulVec (m : M3) (v : V3) : V3 := ⟨m.r0.dot v, m.r1.dot v, m.r2.dot v⟩

/-- Sum of a list of vectors (the accumulation loop at lines 72-75). -/
def listVSum (l : List V3) : V3 := l.foldl (fun a b => a + b) 0

/-- The barycenter: accumulate and divide by the point count (lines 72-76). -/
def barycenter (points : List V3) : V3 :=
  V3.smul (1 / (points.length : ℚ)) (listVSum points)

/-- One entry of the centered scatter accumulation (lines 79-83). -/
def scatterEntry (points : List V3) (c : V3) (f g : V3 → ℚ) : ℚ :=
  (points.map fun p => (f p - f c) * (g p - g c)).sum

theorem scatterEntry_nil (c : V3) (f g : V3 → ℚ) : scatterEntry [] c f g = 0 := rfl

theorem scatterEntry_cons (p : V3) (rest : List V3) (c : V3) (f g : V3 → ℚ) :
    scatterEntry (p :: rest) c f g = (f p - f c) * (g p - g c) + scatterEntry rest c f g := by
  simp [scatterEntry]

/-- The centered scatter matrix: upper-triangular accumulation, then
mirroring of the three off-diagonal entries (lines 79-87). -/
def centeredScatter (points : List V3) (c : V3) : M3 :=
  let exx := scatterEntry points c V3.x V3.x
  let exy := scatterEntry points c V3.x V3.y
  let exz := scatterEntry points c V3.x V3.z
  let eyy := scatterEntry points c V3.y V3.y
  let eyz := scatterEntry points c V3.y V3.z
  let ezz := scatterEntry points c V3.z V3.z
  ⟨⟨exx, exy, exz⟩, ⟨exy, eyy, eyz⟩, ⟨exz, eyz, ezz⟩⟩

/-- The result record of the neighborhood computation (lines 62-67). -/
structure Neighborhood where
  center : V3
  normal : V3
  covariance : M3
  a2D : ℚ
  deriving DecidableEq

/-- Bundled outputs of the external library calls inside
`compute_neighborhood_distribution`: the eigenvalues `l0 ≤ l1 ≤ l2` with
eigenvector columns `v0, v1, v2` (Eigen's `SelfAdjointEigenSolver` returns
them in increasing eigenvalue order), the Euclidean norm `n0` of `v0`
(used by `.normalized()`), and the `std::sqrt` results
`s1 = √|l2|`, `s2 = √|l1|`, `s3 = √|l0|` (lines 93-96). -/
structure SpectralResult where
  l0 : ℚ
  l1 : ℚ
  l2 : ℚ
  v0 : V3
  v1 : V3
  v2 : V3
  n0 : ℚ
  s1 : ℚ
  s2 : ℚ
  s3 : ℚ
  deriving DecidableEq

/-- Error exit of the neighborhood computation. -/
inductive NeighborhoodErr where
  | nanPlanarity
  deriving DecidableEq

/-- `compute_neighborhood_distribution` (lines 69-105): barycenter,
centered scatter, normal = normalized smallest-eigenvalue eigenvector,
planarity `a2D = (s2 − s3)/s1`; the final `a2D != a2D` check detects an
IEEE NaN, which for a quotient of finite nonnegative numbers arises
exactly from the indeterminate form 0/0, i.e. `s1 = 0 ∧ s2 − s3 = 0`. -/
def compute_neighborhood_distribution (points : List V3) (es : SpectralResult) :
    Except NeighborhoodErr Neighborhood :=
  let c := barycenter points
  let cov := centeredScatter points c
  let normal := V3.smul (1 / es.n0) es.v0
  if es.s1 = 0 ∧ es.s2 - es.s3 = 0 then .error .nanPlanarity
  else .ok ⟨c, normal, cov, (es.s2 - es.s3) / es.s1⟩

/-- The quadratic form of the centered scatter matrix is the sum of the
squared centered projections — the scatter matrix is positive
semidefinite. -/
theorem quadForm_centeredScatter (points : List V3) (c v : V3) :
    v.dot ((centeredScatter points c).mulVec v)
      = (points.map fun p => ((p - c).dot v) * ((p - c).dot v)).sum := by
  induction points with
  | nil =>
    simp [centeredScatter, scatterEntry_nil, M3.mulVec, V3.dot]
  | cons p rest ih =>
    simp only [centeredScatter, M3.mulVec, V3.dot, scatterEntry_cons, List.map_cons,
      List.sum_cons, V3.sub_def] at ih ⊢
    linear_combination ih

theorem quadForm_nonneg (points : List V3) (c v : V3) :
    0 ≤ v.dot ((centeredScatter points c).mulVec v) := by
  rw [quadForm_centeredScatter]
  refine List.sum_nonneg ?_
  intro a ha
  rcases List.mem_map.mp ha with ⟨p, _, rfl⟩
  exact mul_self_nonneg _

/-- Any eigenvalue of the centered scatter matrix with a nonzero
eigenvector is nonnegative. -/
theorem scatter_eigenvalue_nonneg (points : List V3) (c : V3) (l : ℚ) (v : V3)
    (hv : 0 < v.dot v)
    (heq : (centeredScatter points c).mulVec v = V3.smul l v) : 0 ≤ l := by
  have h := quadForm_nonneg points c v
  rw [heq] at h
  have hdot : v.dot (V3.smul l v) = l * v.dot v := by
    simp [V3.dot, V3.smul]; ring
  rw [hdot] at h
  nlinarith

/-- C9: for a non-empty neighbor set, `compute_neighborhood_distribution`
returns the arithmetic mean as center, a unit eigenvector for the smallest
eigenvalue of the centered scatter matrix as normal, and planarity
`a2D = (σ2 − σ3)/σ1` where `σ1 ≥ σ2 ≥ σ3` are the square roots of the
scatter matrix's (nonnegative) eigenvalues; and when the computed `a2D`
is NaN it raises a fatal error instead of returning. -/
theorem computeNeighborhood_spec (points : List V3) (es : SpectralResult)
    (hne : points ≠ [])
    (hv0 : (centeredScatter points (barycenter points)).mulVec es.v0 = V3.smul es.l0 es.v0)
    (hv1 : (centeredScatter points (barycenter points)).mulVec es.v1 = V3.smul es.l1 es.v1)
    (hv2 : (centeredScatter points (barycenter points)).mulVec es.v2 = V3.smul es.l2 es.v2)
    (hasc01 : es.l0 ≤ es.l1) (hasc12 : es.l1 ≤ es.l2)
    (hn0pos : 0 < es.n0) (hn0sq : es.n0 * es.n0 = es.v0.dot es.v0)
    (hnz1 : 0 < es.v1.dot es.v1) (hnz2 : 0 < es.v2.dot es.v2)
    (hs1 : 0 ≤ es.s1) (hs1sq : es.s1 * es.s1 = |es.l2|)
    (hs2 : 0 ≤ es.s2) (hs2sq : es.s2 * es.s2 = |es.l1|)
    (hs3 : 0 ≤ es.s3) (hs3sq : es.s3 * es.s3 = |es.l0|) :
    ((es.s1 = 0 ∧ es.s2 - es.s3 = 0) →
      compute_neighborhood_distribution points es = .error .nanPlanarity)
    ∧ ∀ nb, compute_neighborhood_distribution points es = .ok nb →
        V3.smul ((points.length : ℚ)) nb.center = listVSum points
        ∧ nb.covariance = centeredScatter points (barycenter points)
        ∧ nb.normal.dot nb.normal = 1
        ∧ (centeredScatter points (barycenter points)).mulVec nb.normal
            = V3.smul es.l0 nb.normal
        ∧ es.l0 ≤ es.l1 ∧ es.l0 ≤ es.l2
        ∧ es.s1 * es.s1 = es.l2 ∧ es.s2 * es.s2 = es.l1 ∧ es.s3 * es.s3 = es.l0
        ∧ es.s3 ≤ es.s2 ∧ es.s2 ≤ es.s1
        ∧ nb.a2D * es.s1 = es.s2 - es.s3 := by
  have hv0pos : 0 < es.v0.dot es.v0 := by nlinarith
  have hl0 : 0 ≤ es.l0 := scatter_eigenvalue_nonneg points _ es.l0 es.v0 hv0pos hv0
  have hl1 : 0 ≤ es.l1 := scatter_eigenvalue_nonneg points _ es.l1 es.v1 hnz1 hv1
  have hl2 : 0 ≤ es.l2 := scatter_eigenvalue_nonneg points _ es.l2 es.v2 hnz2 hv2
  have hs1l : es.s1 * es.s1 = es.l2 := by rwa [abs_of_nonneg hl2] at hs1sq
  have hs2l : es.s2 * es.s2 = es.l1 := by rwa [abs_of_nonneg hl1] at hs2sq
  have hs3l : es.s3 * es.s3 = es.l0 := by rwa [abs_of_nonneg hl0] at hs3sq
  have hord32 : es.s3 ≤ es.s2 := by nlinarith
  have hord21 : es.s2 ≤ es.s1 := by nlinarith
  constructor
  · intro h
    rw [compute_neighborhood_distribution, if_pos h]
  · intro nb hnb
    rw [compute_neighborhood_distribution] at hnb
    by_cases hcond : es.s1 = 0 ∧ es.s2 - es.s3 = 0
    · rw [if_pos hcond] at hnb; exact absurd hnb (by simp)
    · rw [if_neg hcond] at hnb
      have hnb' := Except.ok.inj hnb
      subst hnb'
      have hlen : (points.length : ℚ) ≠ 0 := by
        have h1 : points.length ≠ 0 := by
          intro h0; exact hne (List.length_eq_zero.mp h0)
        exact_mod_cast h1
      have hn0ne : es.n0 ≠ 0 := ne_of_gt hn0pos
      have hs1ne : es.s1 ≠ 0 := by
        intro h0
        refine hcond ⟨h0, ?_⟩
        have hl2z : es.l2 = 0 := by rw [← hs1l, h0]; ring
        have hl1z : es.l1 = 0 := le_antisymm (hl2z ▸ hasc12) hl1
        have hl0z : es.l0 = 0 := le_antisymm (hl1z ▸ hasc01) hl0
        have h2z : es.s2 = 0 := by nlinarith
        have h3z : es.s3 = 0 := by nlinarith
        rw [h2z, h3z]; ring
      refine ⟨?_, rfl, ?_, ?_, hasc01, le_trans hasc01 hasc12, hs1l, hs2l, hs3l,
        hord32, hord21, ?_⟩
      · show V3.smul ((points.length : ℚ)) (barycenter points) = listVSum points
        rw [barycenter]
        rcases listVSum points with ⟨sx, sy, sz⟩
        simp only [V3.smul, V3.mk.injEq]
        refine ⟨?_, ?_, ?_⟩ <;> field_simp
      · show (V3.smul (1 / es.n0) es.v0).dot (V3.smul (1 / es.n0) es.v0) = 1
        simp only [V3.dot, V3.smul]
        have hgoal : (es.v0.x * es.v0.x + es.v0.y * es.v0.y + es.v0.z * es.v0.z)
            = es.n0 * es.n0 := by
          rw [hn0sq, V3.dot]
        field_simp
        linear_combination hgoal
      · show (centeredScatter points (barycenter points)).mulVec (V3.smul (1 / es.n0) es.v0)
            = V3.smul es.l0 (V3.smul (1 / es.n0) es.v0)
        refine V3.ext_of _ _ ?_ ?_ ?_
        · have hx := congrArg V3.x hv0
          simp only [M3.mulVec, V3.dot, V3.smul] at hx ⊢
          linear_combination (1 / es.n0) * hx
        · have hy := congrArg V3.y hv0
          simp only [M3.mulVec, V3.dot, V3.smul] at hy ⊢
          linear_combination (1 / es.n0) * hy
        · have hz := congrArg V3.z hv0
          simp only [M3.mulVec, V3.dot, V3.smul] at hz ⊢
          linear_combination (1 / es.n0) * hz
      · show (es.s2 - es.s3) / es.s1 * es.s1 = es.s2 - es.s3
        field_simp

/-- Four coplanar neighbor points: corners of a 4×2 rectangle in z = 0. -/
def pointsC9 : List V3 := [⟨0, 0, 0⟩, ⟨0, 2, 0⟩, ⟨4, 0, 0⟩, ⟨4, 2, 0⟩]

/-- Spectral data of the scatter of `pointsC9` (= diag(16, 4, 0)):
eigenvalues 0 ≤ 4 ≤ 16 with axis eigenvectors, all square roots exact. -/
def esC9 : SpectralResult := ⟨0, 4, 16, ⟨0, 0, 1⟩, ⟨0, 1, 0⟩, ⟨1, 0, 0⟩, 1, 4, 2, 0⟩

theorem computeNeighborhood_spec_witness :
    (pointsC9 ≠ [] ∧ 0 < esC9.n0 ∧ esC9.s1 * esC9.s1 = |esC9.l2|)
    ∧ (((esC9.s1 = 0 ∧ esC9.s2 - esC9.s3 = 0) →
        compute_neighborhood_distribution pointsC9 esC9 = .error .nanPlanarity)
      ∧ ∀ nb, compute_neighborhood_distribution pointsC9 esC9 = .ok nb →
          V3.smul ((pointsC9.length : ℚ)) nb.center = listVSum pointsC9
          ∧ nb.covariance = centeredScatter pointsC9 (barycenter pointsC9)
          ∧ nb.normal.dot nb.normal = 1
          ∧ (centeredScatter pointsC9 (barycenter pointsC9)).mulVec nb.normal
              = V3.smul esC9.l0 nb.normal
          ∧ esC9.l0 ≤ esC9.l1 ∧ esC9.l0 ≤ esC9.l2
          ∧ esC9.s1 * esC9.s1 = esC9.l2 ∧ esC9.s2 * esC9.s2 = esC9.l1
          ∧ esC9.s3 * esC9.s3 = esC9.l0
          ∧ esC9.s3 ≤ esC9.s2 ∧ esC9.s2 ≤ esC9.s1
          ∧ nb.a2D * esC9.s1 = esC9.s2 - esC9.s3) :=
  ⟨⟨by simp [pointsC9], by norm_num [esC9], by
      norm_num [esC9]⟩,
   computeNeighborhood_spec pointsC9 esC9 (by simp [pointsC9])
     (by norm_num [pointsC9, esC9, centeredScatter, scatterEntry, barycenter, listVSum,
        M3.mulVec, V3.dot, V3.smul, V3.add_def, V3.zero_x, V3.zero_y, V3.zero_z, V3.mk.injEq])
     (by norm_num [pointsC9, esC9, centeredScatter, scatterEntry, barycenter, listVSum,
        M3.mulVec, V3.dot, V3.smul, V3.add_def, V3.zero_x, V3.zero_y, V3.zero_z, V3.mk.injEq])
     (by norm_num [pointsC9, esC9, centeredScatter, scatterEntry, barycenter, listVSum,
        M3.mulVec, V3.dot, V3.smul, V3.add_def, V3.zero_x, V3.zero_y, V3.zero_z, V3.mk.injEq])
     (by norm_num [esC9]) (by norm_num [esC9]) (by norm_num [esC9])
     (by norm_num [esC9, V3.dot]) (by norm_num [esC9, V3.dot]) (by norm_num [esC9, V3.dot])
     (by norm_num [esC9]) (by norm_num [esC9]) (by norm_num [esC9]) (by norm_num [esC9])
     (by norm_num [esC9]) (by norm_num [esC9])⟩

/-! ## IMU bracketing and gyro cost terms (steam_lio.cpp lines 681-784)

For each IMU sample the source scans the knot list from
`prev_trajectory_var_index`, advancing while the sample time does not fall
in `[t_i, t_{i+1})` (lines 699-704), and then re-checks the bracket and
throws `"imu stamp not within knot times"` when it fails (lines 705-707).
The re-check reads `trajectory_vars_[i]` first and — thanks to C++
short-circuit `||` — reads `trajectory_vars_[i + 1]` only when
`timestamp >= t_i`; when the scan ran off the end, `i + 1` equals
`trajectory_vars_.size()` and that read is out of bounds.  The same
pattern recurs for the mid-timestamp bias lookup (lines 1060-1068). -/

/-- The scan loop of lines 699-704: starting from index `i`, advance while
`i < size − 1` and the time does not fall in `[t_i, t_{i+1})`. -/
def bracketScan (times : List ℚ) (ts : ℚ) (i : Nat) : Nat :=
  if h : i < times.length - 1 then
    if times.getD i 0 ≤ ts ∧ ts < times.getD (i + 1) 0 then i
    else bracketScan times ts (i + 1)
  else i
termination_by times.length - 1 - i
decreasing_by omega

/-- The post-loop re-check of lines 705-707 (and 1066-1068), with C++
short-circuit evaluation: read `times[i]`; if the sample is not before it,
read `times[i + 1]` — an out-of-bounds access when `i + 1 = size`. -/
def bracketCheck (notWithin : FatalErr) (times : List ℚ) (ts : ℚ) (i : Nat) :
    Except FatalErr Nat :=
  match times.get? i with
  | none => .error .vectorIndexOutOfBounds
  | some ti =>
    if ts < ti then .error notWithin
    else
      match times.get? (i + 1) with
      | none => .error .vectorIndexOutOfBounds
      | some ti1 => if ts ≥ ti1 then .error notWithin else .ok i

/-- Bracket search for one IMU sample (lines 699-707). -/
def findBracket (times : List ℚ) (start : Nat) (ts : ℚ) : Except FatalErr Nat :=
  bracketCheck .imuStampNotWithinKnotTimes times ts (bracketScan times ts start)

/-- Bracket search for the mid-timestamp bias lookup (lines 1060-1068);
identical control flow, different exception message. -/
def findMidBracket (times : List ℚ) (start : Nat) (ts : ℚ) : Except FatalErr Nat :=
  bracketCheck .midStampNotWithinKnotTimes times ts (bracketScan times ts start)

/-- Robust loss functions of the steam library used by the source. -/
inductive LossFunc where
  | l2
  | l1
  | dcs (sigma : ℚ)
  | cauchy (sigma : ℚ)
  | gm (sigma : ℚ)
  deriving DecidableEq

/-- Noise models passed to `WeightedLeastSqCostTerm`. -/
inductive NoiseModel where
  | staticDiag3 (d : V3)
  | staticInfo3 (rows : M3)
  deriving DecidableEq

/-- Error functionals appearing in the IMU block, recorded by the arguments
the source passes to the library constructors: `GyroError` receives the
velocity interpolator at the sample time, the bracketing knot's bias
variable and the measured angular velocity, so its residual is
`e_g = ω_body(τ) − (gyro_meas − bias_i)`; `AccelerationError` analogously
(built at lines 740-744 but never added as a cost term). -/
inductive ErrorFunc where
  | gyroErr (knotIdx : Nat) (tau : ℚ) (ang_vel : V3)
  | accelErr (knotIdx : Nat) (tau : ℚ) (lin_acc : V3)
  deriving DecidableEq

/-- A `WeightedLeastSqCostTerm`: error functional, noise model, loss. -/
structure CostTerm where
  err : ErrorFunc
  noise : NoiseModel
  loss : LossFunc
  deriving DecidableEq

/-- Per-sample IMU processing (lines 698-753): bracket search, then the
cost-term constructions.  The accelerometer cost term is constructed at
lines 740-744 but its `addCostTerm` is commented out (lines 750-751), so
exactly one cost term — the gyro term with noise `diag(r_imu_ang)` and L1
loss (lines 685-697, 745-753) — is emitted per sample. -/
def processImuSample (times : List ℚ) (start : Nat) (r_imu_ang : V3) (ts : ℚ) (ang_vel : V3) :
    Except FatalErr (List CostTerm) :=
  match findBracket times start ts with
  | .error e => .error e
  | .ok i => .ok [⟨.gyroErr i ts ang_vel, .staticDiag3 r_imu_ang, .l1⟩]

/-- The loop over `imu_data_vec` (line 698), emitting cost terms in order
and aborting at the first sample whose bracket search throws. -/
def processImuData (times : List ℚ) (start : Nat) (r_imu_ang : V3) :
    List (ℚ × V3) → Except FatalErr (List CostTerm)
  | [] => .ok []
  | d :: rest =>
    match processImuSample times start r_imu_ang d.1 d.2 with
    | .error e => .error e
    | .ok cs =>
      match processImuData times start r_imu_ang rest with
      | .error e => .error e
      | .ok more => .ok (cs ++ more)

theorem bracketScan_ge (times : List ℚ) (ts : ℚ) (i : Nat) : i ≤ bracketScan times ts i := by
  rw [bracketScan]
  split
  · split
    · exact Nat.le_refl i
    · exact Nat.le_trans (Nat.le_succ i) (bracketScan_ge times ts (i + 1))
  · exact Nat.le_refl i
termination_by times.length - 1 - i
decreasing_by omega

theorem bracketScan_le (times : List ℚ) (ts : ℚ) (i : Nat) (h : i ≤ times.length - 1) :
    bracketScan times ts i ≤ times.length - 1 := by
  rw [bracketScan]
  split
  · split
    · omega
    · exact bracketScan_le times ts (i + 1) (by omega)
  · exact h
termination_by times.length - 1 - i
decreasing_by omega

/-- If the scan stops strictly before the last index, the bracket condition
holds at the stopping index. -/
theorem bracketScan_found (times : List ℚ) (ts : ℚ) (i : Nat)
    (h : bracketScan times ts i < times.length - 1) :
    times.getD (bracketScan times ts i) 0 ≤ ts
      ∧ ts < times.getD (bracketScan times ts i + 1) 0 := by
  by_cases h1 : i < times.length - 1
  · by_cases h2 : times.getD i 0 ≤ ts ∧ ts < times.getD (i + 1) 0
    · have hv : bracketScan times ts i = i := by
        rw [bracketScan, dif_pos h1, if_pos h2]
      rw [hv]; exact h2
    · have hv : bracketScan times ts i = bracketScan times ts (i + 1) := by
        rw [bracketScan, dif_pos h1, if_neg h2]
      rw [hv] at h ⊢
      exact bracketScan_found times ts (i + 1) h
  · have hv : bracketScan times ts i = i := by
      rw [bracketScan, dif_neg h1]
    rw [hv] at h
    omega
termination_by times.length - 1 - i
decreasing_by omega

theorem bracketCheck_some_some (notWithin : FatalErr) (times : List ℚ) (ts : ℚ) (i : Nat)
    (ti ti1 : ℚ) (h1 : times.get? i = some ti) (h2 : times.get? (i + 1) = some ti1) :
    bracketCheck notWithin times ts i
      = if ts < ti then .error notWithin
        else if ts ≥ ti1 then .error notWithin else .ok i := by
  simp only [bracketCheck, h1, h2]

theorem bracketCheck_some_none (notWithin : FatalErr) (times : List ℚ) (ts : ℚ) (i : Nat)
    (ti : ℚ) (h1 : times.get? i = some ti) (h2 : times.get? (i + 1) = none) :
    bracketCheck notWithin times ts i
      = if ts < ti then .error notWithin else .error .vectorIndexOutOfBounds := by
  simp only [bracketCheck, h1, h2]

/-- If no index from `i` on satisfies the bracket condition, the scan runs
to the last index. -/
theorem bracketScan_nofind (times : List ℚ) (ts : ℚ) (i : Nat) (hle : i ≤ times.length - 1)
    (h : ∀ j, i ≤ j → j < times.length - 1 →
      ¬(times.getD j 0 ≤ ts ∧ ts < times.getD (j + 1) 0)) :
    bracketScan times ts i = times.length - 1 := by
  rw [bracketScan]
  split
  · rename_i h1
    split
    · rename_i h2
      exact absurd h2 (h i (Nat.le_refl i) h1)
    · exact bracketScan_nofind times ts (i + 1) (by omega)
        (fun j hj hj2 => h j (by omega) hj2)
  · omega
termination_by times.length - 1 - i
decreasing_by omega

/-- If some index from `i` on satisfies the bracket condition, the scan
stops strictly before the last index. -/
theorem bracketScan_finds (times : List ℚ) (ts : ℚ) (i j : Nat) (hij : i ≤ j)
    (hj : j < times.length - 1)
    (hcond : times.getD j 0 ≤ ts ∧ ts < times.getD (j + 1) 0) :
    bracketScan times ts i < times.length - 1 := by
  rw [bracketScan]
  split
  · split
    · rename_i h1 h2
      omega
    · rename_i h1 h2
      rcases Nat.eq_or_lt_of_le hij with heq | hlt
      · subst heq; exact absurd hcond h2
      · exact bracketScan_finds times ts (i + 1) j hlt hj hcond
  · omega
termination_by times.length - 1 - i
decreasing_by omega

/-- C4: with `use_imu` enabled, for every IMU sample: when the sample's
timestamp falls in `[t_i, t_{i+1})` for some consecutive knots at or after
the window start, exactly one cost term is emitted for the sample, and it
is the gyro term — residual arguments `(ω(τ), bias_i, gyro_meas)`, noise
`diag(r_imu_ang)`, L1 loss; when the timestamp is bracketed by no such
pair, the processing ends in an error (for a timestamp at or past the last
knot this error is the out-of-bounds read settled by the companion claim,
otherwise the `"imu stamp not within knot times"` exception). -/
theorem processImuSample_gyro_only (times : List ℚ) (start : Nat) (r_imu_ang : V3)
    (ts : ℚ) (ang_vel : V3) (hstart : start < times.length) :
    ((∃ j, start ≤ j ∧ j + 1 < times.length
        ∧ times.getD j 0 ≤ ts ∧ ts < times.getD (j + 1) 0) →
      ∃ i, start ≤ i ∧ i + 1 < times.length
        ∧ times.getD i 0 ≤ ts ∧ ts < times.getD (i + 1) 0
        ∧ processImuSample times start r_imu_ang ts ang_vel
            = .ok [⟨.gyroErr i ts ang_vel, .staticDiag3 r_imu_ang, .l1⟩])
    ∧ ((¬ ∃ j, start ≤ j ∧ j + 1 < times.length
        ∧ times.getD j 0 ≤ ts ∧ ts < times.getD (j + 1) 0) →
      ∃ e, processImuSample times start r_imu_ang ts ang_vel = .error e) := by
  constructor
  · rintro ⟨j, hsj, hj1, hcond1, hcond2⟩
    have hfind := bracketScan_finds times ts start j hsj (by omega) ⟨hcond1, hcond2⟩
    have hcond := bracketScan_found times ts start hfind
    have hge := bracketScan_ge times ts start
    refine ⟨bracketScan times ts start, hge, by omega, hcond.1, hcond.2, ?_⟩
    have hi : bracketScan times ts start < times.length := by omega
    have hi1 : bracketScan times ts start + 1 < times.length := by omega
    have hgd : times.getD (bracketScan times ts start) 0 = times.get ⟨_, hi⟩ := by
      rw [List.getD_eq_get?, List.get?_eq_get hi]; rfl
    have hgd1 : times.getD (bracketScan times ts start + 1) 0 = times.get ⟨_, hi1⟩ := by
      rw [List.getD_eq_get?, List.get?_eq_get hi1]; rfl
    rw [processImuSample, findBracket,
      bracketCheck_some_some _ times ts _ _ _ (List.get?_eq_get hi) (List.get?_eq_get hi1)]
    rw [if_neg (by rw [← hgd]; exact not_lt.mpr hcond.1)]
    rw [if_neg (by rw [← hgd1]; exact not_le.mpr hcond.2)]
  · intro hno
    have hnof : ∀ j, start ≤ j → j < times.length - 1 →
        ¬(times.getD j 0 ≤ ts ∧ ts < times.getD (j + 1) 0) := by
      intro j hsj hj hcond
      exact hno ⟨j, hsj, by omega, hcond.1, hcond.2⟩
    have hscan := bracketScan_nofind times ts start (by omega) hnof
    have hlast : times.length - 1 < times.length := by omega
    have hnone : times.get? (times.length - 1 + 1) = none := by
      refine List.get?_eq_none.mpr ?_
      omega
    rw [processImuSample, findBracket, hscan,
      bracketCheck_some_none _ times ts _ _ (List.get?_eq_get hlast) hnone]
    by_cases hts : ts < times.get ⟨times.length - 1, hlast⟩
    · rw [if_pos hts]
      exact ⟨.imuStampNotWithinKnotTimes, rfl⟩
    · rw [if_neg hts]
      exact ⟨.vectorIndexOutOfBounds, rfl⟩

theorem processImuSample_gyro_only_witness :
    0 < [(0 : ℚ), 1].length
    ∧ processImuSample [(0 : ℚ), 1] 0 ⟨1, 1, 1⟩ (1/2) ⟨0, 0, 0⟩
        = .ok [⟨.gyroErr 0 (1/2) ⟨0, 0, 0⟩, .staticDiag3 ⟨1, 1, 1⟩, .l1⟩] := by
  refine ⟨by decide, ?_⟩
  obtain ⟨i, hge, hlt, hc1, hc2, heq⟩ :=
    (processImuSample_gyro_only [(0 : ℚ), 1] 0 ⟨1, 1, 1⟩ (1/2) ⟨0, 0, 0⟩ (by decide)).1
      ⟨0, by omega, by decide,
        by norm_num [List.getD_cons_zero, List.getD_cons_succ],
        by norm_num [List.getD_cons_zero, List.getD_cons_succ]⟩
  have hl2 : i + 1 < 2 := by simpa using hlt
  have hi0 : i = 0 := by omega
  subst hi0
  exact heq

/-- Monotonicity of knot times under the strictly-increasing invariant. -/
theorem chain_getD_mono (times : List ℚ) (hchain : List.Chain' (fun a b => a < b) times) :
    ∀ i j, i ≤ j → j < times.length → times.getD i 0 ≤ times.getD j 0 := by
  have hstep : ∀ k, k + 1 < times.length → times.getD k 0 < times.getD (k + 1) 0 := by
    intro k hk
    have hk0 : k < times.length := by omega
    have h := List.chain'_iff_get.mp hchain k (by omega)
    rw [List.getD_eq_get?, List.getD_eq_get?, List.get?_eq_get hk0, List.get?_eq_get hk]
    exact h
  intro i j hij hj
  induction j with
  | zero =>
    have : i = 0 := by omega
    subst this; exact le_refl _
  | succ n ihn =>
    rcases Nat.eq_or_lt_of_le hij with heq | hlt
    · subst heq; exact le_refl _
    · have h1 : times.getD i 0 ≤ times.getD n 0 := ihn (by omega) (by omega)
      exact le_trans h1 (le_of_lt (hstep n hj))

/-- C5: in the IMU bracket search (and the analogous mid-time bias lookup),
a queried timestamp at or past the last knot time makes the scan run to the
last index, after which the post-loop check reads `trajectory_vars_[i + 1]`
with `i + 1 = trajectory_vars_.size()`: under the total embedding this
index is out of range and the access is reported before the intended
"not within knot times" exception can be thrown. -/
theorem findBracket_pastEnd_oob (times : List ℚ) (start : Nat) (ts : ℚ)
    (hchain : List.Chain' (fun a b => a < b) times)
    (hstart : start < times.length)
    (hlast : times.getD (times.length - 1) 0 ≤ ts) :
    bracketScan times ts start = times.length - 1
    ∧ bracketScan times ts start + 1 = times.length
    ∧ times.get? (bracketScan times ts start + 1) = none
    ∧ findBracket times start ts = .error .vectorIndexOutOfBounds
    ∧ findMidBracket times start ts = .error .vectorIndexOutOfBounds := by
  have hnof : ∀ j, start ≤ j → j < times.length - 1 →
      ¬(times.getD j 0 ≤ ts ∧ ts < times.getD (j + 1) 0) := by
    rintro j _ hj ⟨_, hc2⟩
    have hmono : times.getD (j + 1) 0 ≤ times.getD (times.length - 1) 0 :=
      chain_getD_mono times hchain (j + 1) (times.length - 1) (by omega) (by omega)
    exact absurd hc2 (not_lt.mpr (le_trans hmono hlast))
  have hscan := bracketScan_nofind times ts start (by omega) hnof
  have hlen : times.length - 1 + 1 = times.length := by omega
  have hnone : times.get? (times.length - 1 + 1) = none := by
    refine List.get?_eq_none.mpr ?_; omega
  have hlt : times.length - 1 < times.length := by omega
  have hgd : times.getD (times.length - 1) 0 = times.get ⟨times.length - 1, hlt⟩ := by
    rw [List.getD_eq_get?, List.get?_eq_get hlt]; rfl
  have hcheck : ∀ notWithin, bracketCheck notWithin times ts (times.length - 1)
      = .error .vectorIndexOutOfBounds := by
    intro notWithin
    rw [bracketCheck_some_none _ times ts _ _ (List.get?_eq_get hlt) hnone]
    rw [if_neg (not_lt.mpr (by rw [← hgd]; exact hlast))]
  refine ⟨hscan, by omega, by rw [hscan]; exact hnone, ?_, ?_⟩
  · rw [findBracket, hscan]; exact hcheck _
  · rw [findMidBracket, hscan]; exact hcheck _

theorem findBracket_pastEnd_oob_witness :
    List.Chain' (fun a b : ℚ => a < b) [(0 : ℚ), 1]
    ∧ (bracketScan [(0 : ℚ), 1] 5 0 = [(0 : ℚ), 1].length - 1
      ∧ bracketScan [(0 : ℚ), 1] 5 0 + 1 = [(0 : ℚ), 1].length
      ∧ [(0 : ℚ), 1].get? (bracketScan [(0 : ℚ), 1] 5 0 + 1) = none
      ∧ findBracket [(0 : ℚ), 1] 0 5 = .error .vectorIndexOutOfBounds
      ∧ findMidBracket [(0 : ℚ), 1] 0 5 = .error .vectorIndexOutOfBounds) :=
  ⟨by norm_num [List.chain'_cons, List.chain'_singleton],
   findBracket_pastEnd_oob [(0 : ℚ), 1] 0 5
     (by norm_num [List.chain'_cons, List.chain'_singleton]) (by decide) (by decide)⟩

/-! ## The `icp` state assembly and outer loop (steam_lio.cpp lines 425-1102)

The numeric work of `icp` — GP interpolation, Gauss-Newton solves, the
point-to-plane association — lives in the external steam library and in
floating-point state the claims below do not constrain; the embedded model
keeps the exact control flow and state bookkeeping of the source and
receives the numeric outcomes as explicit inputs: the current value of the
previous knot's pose variable (`prev_T_rm`), the per-iteration association
and convergence numbers (`outs`), and the variable/cost-term counts the
sliding-window filter reports at the final gate (`swCounts`). -/

/-- Column extraction for the row-major `M3`. -/
def M3.col0 (m : M3) : V3 := ⟨m.r0.x, m.r1.x, m.r2.x⟩

/-- Second column. -/
def M3.col1 (m : M3) : V3 := ⟨m.r0.y, m.r1.y, m.r2.y⟩

/-- Third column. -/
def M3.col2 (m : M3) : V3 := ⟨m.r0.z, m.r1.z, m.r2.z⟩

/-- Matrix product. -/
def M3.mulM (a b : M3) : M3 :=
  ⟨⟨a.r0.dot b.col0, a.r0.dot b.col1, a.r0.dot b.col2⟩,
   ⟨a.r1.dot b.col0, a.r1.dot b.col1, a.r1.dot b.col2⟩,
   ⟨a.r2.dot b.col0, a.r2.dot b.col1, a.r2.dot b.col2⟩⟩

/-- Determinant of a 3×3 matrix. -/
def M3.det (m : M3) : ℚ :=
  m.r0.x * (m.r1.y * m.r2.z - m.r1.z * m.r2.y)
    - m.r0.y * (m.r1.x * m.r2.z - m.r1.z * m.r2.x)
    + m.r0.z * (m.r1.x * m.r2.y - m.r1.y * m.r2.x)

/-- Inverse by the adjugate formula (total: junk on singular input, as is
the C++ `Eigen` inverse). -/
def M3.inv (m : M3) : M3 :=
  let d := m.det
  ⟨⟨(m.r1.y * m.r2.z - m.r1.z * m.r2.y) / d, (m.r0.z * m.r2.y - m.r0.y * m.r2.z) / d,
    (m.r0.y * m.r1.z - m.r0.z * m.r1.y) / d⟩,
   ⟨(m.r1.z * m.r2.x - m.r1.x * m.r2.z) / d, (m.r0.x * m.r2.z - m.r0.z * m.r2.x) / d,
    (m.r0.z * m.r1.x - m.r0.x * m.r1.z) / d⟩,
   ⟨(m.r1.x * m.r2.y - m.r1.y * m.r2.x) / d, (m.r0.y * m.r2.x - m.r0.x * m.r2.y) / d,
    (m.r0.x * m.r1.y - m.r0.y * m.r1.x) / d⟩⟩

/-- The identity matrix. -/
def M3.idm : M3 := ⟨⟨1, 0, 0⟩, ⟨0, 1, 0⟩, ⟨0, 0, 1⟩⟩

/-- A 4×4 homogeneous transform with last row (0,0,0,1), stored as linear
block and translation.  Every `Eigen::Matrix4d` handled by the `T_mi`
bookkeeping (ground-truth table entries and `lgmath` transformation
matrices) has this form, on which the general 4×4 product and inverse
coincide with the affine formulas below. -/
structure AffineTf where
  R : M3
  t : V3
  deriving DecidableEq

/-- Composition `a · b` of homogeneous transforms. -/
def AffineTf.mul (a b : AffineTf) : AffineTf := ⟨a.R.mulM b.R, a.R.mulVec b.t + a.t⟩

/-- Inverse of a homogeneous transform. -/
def AffineTf.inv (a : AffineTf) : AffineTf :=
  let Ri := a.R.inv
  ⟨Ri, V3.smul (-1) (Ri.mulVec a.t)⟩

/-- The identity transform. -/
def AffineTf.idt : AffineTf := ⟨M3.idm, 0⟩

/-- Zero the translation block (`.block<3,1>(0,3) = Zero()`). -/
def AffineTf.zeroTrans (a : AffineTf) : AffineTf := ⟨a.R, 0⟩

instance : Inhabited AffineTf := ⟨AffineTf.idt⟩

/-- Lines 456-462: zero the translation of this frame's ground-truth pose
`T_i_r_gt`, multiply by the previous knot's current `T_rm` value, take the
(Eigen general) inverse, and zero the translation of the result. -/
def computeTmiGt (T_i_r_gt prev_T_rm : AffineTf) : AffineTf :=
  ((T_i_r_gt.zeroTrans.mul prev_T_rm).inv).zeroTrans

/-- Line 481: `prev_T_mi_var->update(Transformation(T_mi_gt).vec())`.  The
steam `SE3StateVar::update` left-multiplies the current value by the
exponential of the perturbation; with the perturbation `log(T_mi_gt)` the
new value is `T_mi_gt · old` (library call, embedded by its algebraic
effect). -/
def se3UpdateByLog (T old : AffineTf) : AffineTf := T.mul old

/-- Line 460: the flag is hard-coded. -/
def use_T_mi_gt : Bool := true

/-- A knot of `trajectory_vars_`, restricted to the fields the claims read:
its time, its `T_mi` value and whether the `T_mi` variable is locked.  The
`T_rm`/velocity/acceleration/bias variables are numeric solver state and
are tracked as `VarRef` tags. -/
structure TrajKnot where
  time : ℚ
  T_mi : AffineTf
  T_mi_locked : Bool
  deriving DecidableEq

instance : Inhabited TrajKnot := ⟨⟨0, AffineTf.idt, false⟩⟩

/-- The five state variables of a knot. -/
inductive VarKind where
  | T_rm
  | w_mr_inr
  | dw_mr_inr
  | imu_biases
  | T_mi
  deriving DecidableEq

/-- A reference to one state variable of one knot. -/
structure VarRef where
  knot : Nat
  kind : VarKind
  deriving DecidableEq

/-- The configuration options `icp` consults. -/
structure Options where
  use_imu : Bool
  T_mi_init_only : Bool
  num_extra_states : Nat
  delay_adding_points : Nat
  num_iters_icp : Nat
  min_number_keypoints : Nat
  threshold_orientation_norm : ℚ
  threshold_translation_norm : ℚ
  init_num_frames : Nat
  deriving DecidableEq

/-- Result of the state-variable assembly (lines 443-548). -/
structure IcpAssembly where
  trajectory_vars : List TrajKnot
  steam_state_vars : List VarRef
  prev_idx : Nat
  curr_idx : Nat
  deriving DecidableEq

/-- One step of the new-state loop (lines 503-548): append the knot's
`T_rm`/velocity/acceleration variables (and bias when `use_imu`) to
`steam_state_vars`; under `use_T_mi_gt` the knot's `T_mi` is the identity
transform and locked (lines 528-533); otherwise it carries the previous
`T_mi`, is locked only in `T_mi_init_only` mode, and is enrolled as a state
variable when `use_imu` and not `T_mi_init_only` (lines 534-544). -/
def newKnotStep (opts : Options) (prev_T_mi : AffineTf)
    (acc : List TrajKnot × List VarRef) (kt : ℚ) : List TrajKnot × List VarRef :=
  let idx := acc.1.length
  let baseVars : List VarRef :=
    [⟨idx, .T_rm⟩, ⟨idx, .w_mr_inr⟩, ⟨idx, .dw_mr_inr⟩]
      ++ (if opts.use_imu then [⟨idx, .imu_biases⟩] else [])
  if use_T_mi_gt then
    (acc.1 ++ [⟨kt, AffineTf.idt, true⟩], acc.2 ++ baseVars)
  else
    let tmiVars : List VarRef :=
      if opts.use_imu ∧ ¬ opts.T_mi_init_only then [⟨idx, .T_mi⟩] else []
    (acc.1 ++ [⟨kt, prev_T_mi, opts.T_mi_init_only⟩], acc.2 ++ baseVars ++ tmiVars)

/-- Lines 472-486: the variables of the previous knot enrolled in
`steam_state_vars` — always `T_rm`/velocity/acceleration, the bias when
`use_imu`, and the previous `T_mi` only when not `use_T_mi_gt` (and not
`T_mi_init_only`, or on the first frame). -/
def icpSetupVars1 (opts : Options) (index_frame prev_idx : Nat) : List VarRef :=
  let vars0 : List VarRef :=
    [⟨prev_idx, .T_rm⟩, ⟨prev_idx, .w_mr_inr⟩, ⟨prev_idx, .dw_mr_inr⟩]
  if opts.use_imu then
    vars0 ++ [⟨prev_idx, .imu_biases⟩]
      ++ (if ¬ use_T_mi_gt then
            (if ¬ opts.T_mi_init_only ∨ index_frame = 1 then [⟨prev_idx, .T_mi⟩] else [])
          else [])
  else vars0

/-- Lines 476-486: under `use_T_mi_gt` with `use_imu` enabled, the previous
knot's `T_mi` variable is overwritten with the ground-truth-derived value
and locked; otherwise the knot list is untouched. -/
def icpSetupTv1 (opts : Options) (T_i_r_gt prev_T_rm : AffineTf) (tv : List TrajKnot)
    (lastKnot : TrajKnot) : List TrajKnot :=
  if opts.use_imu ∧ use_T_mi_gt then
    tv.set (tv.length - 1)
      { lastKnot with
        T_mi := se3UpdateByLog (computeTmiGt T_i_r_gt prev_T_rm) lastKnot.T_mi,
        T_mi_locked := true }
  else tv

/-- Lines 491-499: the `num_extra_states` intermediate knot times followed
by the current scan's end time. -/
def icpKnotTimes (opts : Options) (prev_time curr_time : ℚ) : List ℚ :=
  let time_diff := (curr_time - prev_time) / ((opts.num_extra_states + 1 : Nat) : ℚ)
  ((List.range opts.num_extra_states).map fun i : ℕ => prev_time + (((i + 1 : ℕ)) : ℚ) * time_diff)
    ++ [curr_time]

/-- Lines 443-548: check the previous scan's end knot, enroll the previous
knot's variables (under `use_T_mi_gt` with `use_imu`, overwrite the
previous knot's `T_mi` with the ground-truth-derived value and lock it,
lines 476-486), then create the `num_extra_states + 1` new knots. -/
def icpSetup (opts : Options) (index_frame : Nat) (T_i_r_gt prev_T_rm : AffineTf)
    (prev_time curr_time : ℚ) (tv : List TrajKnot) : Except FatalErr IcpAssembly :=
  match tv.getLast? with
  | none => .error .vectorIndexOutOfBounds
  | some lastKnot =>
    if lastKnot.time ≠ prev_time then .error .missingPrevScanEndVariable
    else
      let folded := (icpKnotTimes opts prev_time curr_time).foldl
        (newKnotStep opts lastKnot.T_mi)
        (icpSetupTv1 opts T_i_r_gt prev_T_rm tv lastKnot,
         icpSetupVars1 opts index_frame (tv.length - 1))
      .ok ⟨folded.1, folded.2, tv.length - 1, tv.length - 1 + opts.num_extra_states + 1⟩

/-- Prior cost terms assembled outside the ICP loop. -/
inductive PriorCost where
  | biasInitPrior (idx : Nat)
  | tmiInitPrior (idx : Nat)
  | biasRwPrior (i : Nat)
  | tmiRwPrior (i : Nat)
  deriving DecidableEq

/-- Lines 565-578: initial bias prior on the first frame. -/
def icpBiasInitPrior (opts : Options) (index_frame prev_idx : Nat) : List PriorCost :=
  if opts.use_imu then
    (if index_frame = 1 then [.biasInitPrior prev_idx] else [])
  else []

/-- Lines 580-592: initial `T_mi` prior, suppressed under `use_T_mi_gt`. -/
def icpTmiInitPrior (opts : Options) (index_frame prev_idx : Nat) : List PriorCost :=
  if opts.use_imu then
    if ¬ opts.T_mi_init_only ∨ index_frame = 1 then
      (if ¬ use_T_mi_gt then [.tmiInitPrior prev_idx] else [])
    else []
  else []

/-- Lines 756-768: bias random-walk priors between consecutive knots. -/
def icpBiasRwPriors (opts : Options) (prev_idx nvars : Nat) : List PriorCost :=
  if opts.use_imu then
    (List.range' prev_idx (nvars - 1 - prev_idx)).map fun i => .biasRwPrior i
  else []

/-- Lines 770-783: `T_mi` random-walk priors, suppressed under
`use_T_mi_gt`. -/
def icpTmiRwPriors (opts : Options) (prev_idx nvars : Nat) : List PriorCost :=
  if opts.use_imu then
    if ¬ opts.T_mi_init_only ∧ ¬ use_T_mi_gt then
      (List.range' prev_idx (nvars - 1 - prev_idx)).map fun i => .tmiRwPrior i
    else []
  else []

/-- Result of the sliding-window enrollment and marginalization step. -/
structure SwUpdate where
  added : List (List VarRef)
  marg : List VarRef
  to_marginalize : Nat
  deriving DecidableEq

/-- The marginalization loop of lines 634-650: collect the variables of
every knot from `to_marginalize_` whose time is at most the
marginalization time (skipping locked `T_mi` variables), and set
`to_marginalize_` to the first newer knot; if every scanned knot is old,
the pointer is left unchanged.  The `for (i = to_marginalize_;
i <= curr_idx; ++i)` loop is driven by the explicit iteration count
`fuel = curr_idx + 1 − i`. -/
def margLoopGo (opts : Options) (tv : List TrajKnot) (marg_time : ℚ) :
    Nat → Nat → Nat → List VarRef × Nat
  | 0, _, tm => ([], tm)
  | fuel + 1, i, tm =>
    let var := tv.getD i default
    if var.time ≤ marg_time then
      let vs : List VarRef :=
        [⟨i, .T_rm⟩, ⟨i, .w_mr_inr⟩, ⟨i, .dw_mr_inr⟩]
          ++ (if opts.use_imu then
                [⟨i, .imu_biases⟩] ++ (if ¬ var.T_mi_locked then [⟨i, .T_mi⟩] else [])
              else [])
      let rest := margLoopGo opts tv marg_time fuel (i + 1) tm
      (vs ++ rest.1, rest.2)
    else ([], i)

/-- One step of the enrollment loop at lines 611-622: `addStateVariable`
calls for knot `i` — the `T_rm`/velocity/acceleration group, the bias group
when `use_imu`, and the `T_mi` group only when not `T_mi_init_only` and not
`use_T_mi_gt`. -/
def swAddGroupsStep (opts : Options) (acc : List (List VarRef)) (i : Nat) :
    List (List VarRef) :=
  acc ++ [[⟨i, .T_rm⟩, ⟨i, .w_mr_inr⟩, ⟨i, .dw_mr_inr⟩]]
    ++ (if opts.use_imu then
          [[⟨i, .imu_biases⟩]]
            ++ (if ¬ opts.T_mi_init_only then
                  (if ¬ use_T_mi_gt then [[⟨i, .T_mi⟩]] else [])
                else [])
        else [])

/-- Lines 596-656: enroll the previous knot's variables on the first frame
and every new knot's variables (never `T_mi` under `use_T_mi_gt`), then
run the marginalization step when `index_frame − delay_adding_points > 0`. -/
def icpSwUpdate (opts : Options) (index_frame : Nat) (asm : IcpAssembly)
    (frameEndTimes : List ℚ) (to_marg : Nat) : SwUpdate :=
  let adds0 : List (List VarRef) :=
    if index_frame = 1 then
      [[⟨asm.prev_idx, .T_rm⟩, ⟨asm.prev_idx, .w_mr_inr⟩, ⟨asm.prev_idx, .dw_mr_inr⟩]]
        ++ (if opts.use_imu then
              [[⟨asm.prev_idx, .imu_biases⟩]]
                ++ (if ¬ use_T_mi_gt then [[⟨asm.prev_idx, .T_mi⟩]] else [])
            else [])
    else []
  let adds1 := adds0
    ++ (List.range' (asm.prev_idx + 1) (asm.curr_idx - asm.prev_idx)).foldl
      (swAddGroupsStep opts) []
  if (index_frame : ℤ) - (opts.delay_adding_points : ℤ) > 0 then
    let marg_time := frameEndTimes.getD (index_frame - opts.delay_adding_points - 1) 0
    let ml := margLoopGo opts asm.trajectory_vars marg_time
      (asm.curr_idx + 1 - to_marg) to_marg to_marg
    ⟨adds1, ml.1, ml.2⟩
  else ⟨adds1, [], to_marg⟩

/-- The per-iteration numeric outcome of association + solve: the number of
accepted point-to-plane residuals and the summed begin+end pose deltas
computed at lines 957-969. -/
structure IterOut where
  number_keypoints_used : Nat
  diff_trans : ℚ
  diff_rot : ℚ
  deriving DecidableEq

/-- Outcome of the ICP outer loop: the soft success flag, how many outer
iterations ran, and the first iteration (if any) whose post-solve deltas
satisfied the convergence test of lines 983-984. -/
structure IcpLoopResult where
  icp_success : Bool
  iters_executed : Nat
  first_converged : Option Nat
  deriving DecidableEq

/-- The outer loop of lines 818-989.  Each iteration transforms keypoints,
associates, and solves (numeric outcomes supplied by `outs`); if fewer than
`min_number_keypoints` residuals were accepted the loop sets
`icp_success = false` and breaks (lines 932-937).  The convergence test at
lines 983-988 only emits a debug log — there is no `break` — so it never
ends the loop; the model records the first iteration at which it held. -/
def icpOuterLoopGo (opts : Options) (index_frame : Nat) (outs : Nat → IterOut) :
    Nat → Nat → Option Nat → IcpLoopResult
  | iter, 0, conv => ⟨true, iter, conv⟩
  | iter, fuel + 1, conv =>
    let o := outs iter
    if o.number_keypoints_used < opts.min_number_keypoints then
      ⟨false, iter + 1, conv⟩
    else
      let conv1 :=
        if conv = none ∧ index_frame > 1 ∧ o.diff_rot < opts.threshold_orientation_norm
            ∧ o.diff_trans < opts.threshold_translation_norm
        then some iter else conv
      icpOuterLoopGo opts index_frame outs (iter + 1) fuel conv1

/-- `for (int iter(0); iter < options_.num_iters_icp; iter++)`. -/
def icpOuterLoop (opts : Options) (index_frame : Nat) (outs : Nat → IterOut) : IcpLoopResult :=
  icpOuterLoopGo opts index_frame outs 0 opts.num_iters_icp none

/-- Everything `icp` leaves behind that the claims read. -/
structure IcpOutcome where
  success : Bool
  trajectory_vars : List TrajKnot
  to_marginalize : Nat
  swAdded : List (List VarRef)
  margVars : List VarRef
  steam_state_vars : List VarRef
  biasPriors : List PriorCost
  tmiPriors : List PriorCost
  imuCosts : List CostTerm
  loop : IcpLoopResult
  deriving DecidableEq

/-- `SteamLioOdometry::icp` (lines 425-1102): state assembly, priors,
sliding-window enrollment and marginalization, IMU cost construction, the
outer loop, the final bounds gate and sliding-window solve, and the
mid-timestamp bias lookup (`use_imu` only) — in source order.  Fatal
errors (`throw`) abort the whole registration. -/
def icpModel (opts : Options) (index_frame : Nat) (frameEndTimes : List ℚ) (evalTime : ℚ)
    (T_i_r_gt prev_T_rm : AffineTf) (tv : List TrajKnot) (to_marg : Nat)
    (outs : Nat → IterOut) (imu : List (ℚ × V3)) (r_imu_ang : V3)
    (swCounts : Nat × Nat) : Except FatalErr IcpOutcome :=
  let prev_time := frameEndTimes.getD (index_frame - 1) 0
  let curr_time := frameEndTimes.getD index_frame 0
  match icpSetup opts index_frame T_i_r_gt prev_T_rm prev_time curr_time tv with
  | .error e => .error e
  | .ok asm =>
    let biasInit := icpBiasInitPrior opts index_frame asm.prev_idx
    let tmiInit := icpTmiInitPrior opts index_frame asm.prev_idx
    let sw := icpSwUpdate opts index_frame asm frameEndTimes to_marg
    let knotTimes := asm.trajectory_vars.map TrajKnot.time
    match (if opts.use_imu then processImuData knotTimes asm.prev_idx r_imu_ang imu
           else .ok []) with
    | .error e => .error e
    | .ok imuCosts =>
      let biasRw := icpBiasRwPriors opts asm.prev_idx asm.trajectory_vars.length
      let tmiRw := icpTmiRwPriors opts asm.prev_idx asm.trajectory_vars.length
      let loopRes := icpOuterLoop opts index_frame outs
      match finalSlidingWindowSolve swCounts.1 swCounts.2 with
      | .error e => .error e
      | .ok _ =>
        match (if opts.use_imu then
                 (findMidBracket knotTimes asm.prev_idx evalTime).map fun _ => 0
               else .ok 0) with
        | .error e => .error e
        | .ok _ =>
          .ok ⟨loopRes.icp_success, asm.trajectory_vars, sw.to_marginalize, sw.added,
               sw.marg, asm.steam_state_vars, biasInit ++ biasRw, tmiInit ++ tmiRw,
               imuCosts, loopRes⟩

/-- The engine state `registerFrame` reads and writes, polymorphic in the
voxel-map representation (the map update of lines 355-423 is received as
the function `updMap`). -/
structure Engine (MapT : Type) where
  frameEndTimes : List ℚ
  trajectory_vars : List TrajKnot
  to_marginalize : Nat
  map : MapT
  deriving DecidableEq

/-- `SteamLioOdometry::registerFrame` (lines 186-290), at the granularity
of the claims: append the frame, seed the two initial knots on frame 0
(lines 217-259, `to_marginalize_ = 1`, then `updateMap(0,0)`), otherwise
run `icp`; on soft failure return `success = false` *before* the map
update (line 216), otherwise update the map with the delayed frame
(lines 263-267). -/
def registerFrameModel (MapT : Type) (opts : Options) (updMap : MapT → MapT)
    (eng : Engine MapT) (curr_begin_time curr_end_time eval_time : ℚ)
    (T_i_r_gt prev_T_rm : AffineTf) (outs : Nat → IterOut)
    (imu : List (ℚ × V3)) (r_imu_ang : V3) (swCounts : Nat × Nat) :
    Except FatalErr (Bool × Engine MapT) :=
  let index_frame := eng.frameEndTimes.length
  let fets := eng.frameEndTimes ++ [curr_end_time]
  if index_frame = 0 then
    let tv := eng.trajectory_vars
      ++ [⟨curr_begin_time, AffineTf.idt, false⟩, ⟨curr_end_time, AffineTf.idt, false⟩]
    .ok (true, ⟨fets, tv, 1, updMap eng.map⟩)
  else
    match icpModel opts index_frame fets eval_time T_i_r_gt prev_T_rm eng.trajectory_vars
        eng.to_marginalize outs imu r_imu_ang swCounts with
    | .error e => .error e
    | .ok outc =>
      if outc.success then
        let newMap :=
          if (index_frame : ℤ) - (opts.delay_adding_points : ℤ) > 0 then updMap eng.map
          else eng.map
        .ok (true, ⟨fets, outc.trajectory_vars, outc.to_marginalize, newMap⟩)
      else
        .ok (false, ⟨fets, outc.trajectory_vars, outc.to_marginalize, eng.map⟩)

/-! ### Structure of the assembled state (supporting lemmas) -/

/-- The new-state fold appends, for each knot time, a knot whose `T_mi` is
the identity and locked (the `use_T_mi_gt` branch of lines 528-533). -/
theorem newKnotStep_fold_knots (opts : Options) (ptmi : AffineTf) :
    ∀ (kts : List ℚ) (acc : List TrajKnot × List VarRef),
      (kts.foldl (newKnotStep opts ptmi) acc).1
        = acc.1 ++ kts.map fun kt => ⟨kt, AffineTf.idt, true⟩ := by
  intro kts
  induction kts with
  | nil => intro acc; simp
  | cons kt rest ih =>
    intro acc
    rw [List.foldl_cons, ih]
    simp [newKnotStep, use_T_mi_gt]

/-- The `T_rm`/velocity/acceleration/bias variable block of one knot never
contains a `T_mi` reference. -/
theorem baseVars_noTmi (opts : Options) (idx : Nat) :
    ∀ v ∈ (([⟨idx, .T_rm⟩, ⟨idx, .w_mr_inr⟩, ⟨idx, .dw_mr_inr⟩] : List VarRef)
        ++ (if opts.use_imu then [⟨idx, .imu_biases⟩] else [])),
      v.kind ≠ .T_mi := by
  intro v hv
  by_cases hui : opts.use_imu = true
  · rw [if_pos hui] at hv
    simp only [List.mem_append, List.mem_cons, List.mem_singleton,
      List.not_mem_nil, or_false] at hv
    rcases hv with (rfl | rfl | rfl) | rfl <;> exact fun hc => by cases hc
  · rw [if_neg hui, List.append_nil] at hv
    simp only [List.mem_cons, List.mem_singleton, List.not_mem_nil, or_false] at hv
    rcases hv with rfl | rfl | rfl <;> exact fun hc => by cases hc

/-- The new-state fold never enrolls a `T_mi` variable. -/
theorem newKnotStep_fold_vars (opts : Options) (ptmi : AffineTf) :
    ∀ (kts : List ℚ) (acc : List TrajKnot × List VarRef),
      (∀ v ∈ acc.2, v.kind ≠ .T_mi) →
      ∀ v ∈ (kts.foldl (newKnotStep opts ptmi) acc).2, v.kind ≠ .T_mi := by
  intro kts
  induction kts with
  | nil => intro acc hacc; exact hacc
  | cons kt rest ih =>
    intro acc hacc
    rw [List.foldl_cons]
    refine ih _ ?_
    intro v hv
    have hstep : (newKnotStep opts ptmi acc kt).2
        = acc.2 ++ (([⟨acc.1.length, .T_rm⟩, ⟨acc.1.length, .w_mr_inr⟩,
            ⟨acc.1.length, .dw_mr_inr⟩] : List VarRef)
          ++ (if opts.use_imu then [⟨acc.1.length, .imu_biases⟩] else [])) := by
      simp [newKnotStep, use_T_mi_gt]
    rw [hstep] at hv
    rcases List.mem_append.mp hv with hv | hv
    · exact hacc v hv
    · exact baseVars_noTmi opts acc.1.length v hv

/-- Under `use_T_mi_gt` the previous knot's enrolled variables never
include its `T_mi`. -/
theorem icpSetupVars1_noTmi (opts : Options) (index_frame prev_idx : Nat) :
    ∀ v ∈ icpSetupVars1 opts index_frame prev_idx, v.kind ≠ .T_mi := by
  intro v hv
  simp only [icpSetupVars1] at hv
  by_cases hui : opts.use_imu = true
  · rw [if_pos hui, if_neg (by simp [use_T_mi_gt])] at hv
    simp only [List.append_nil, List.mem_append, List.mem_cons, List.mem_singleton,
      List.not_mem_nil, or_false] at hv
    rcases hv with (rfl | rfl | rfl) | rfl <;> exact fun hc => by cases hc
  · rw [if_neg hui] at hv
    simp only [List.mem_cons, List.mem_singleton, List.not_mem_nil, or_false] at hv
    rcases hv with rfl | rfl | rfl <;> exact fun hc => by cases hc

theorem icpSetupTv1_length (opts : Options) (T_i_r_gt prev_T_rm : AffineTf)
    (tv : List TrajKnot) (lastKnot : TrajKnot) :
    (icpSetupTv1 opts T_i_r_gt prev_T_rm tv lastKnot).length = tv.length := by
  rw [icpSetupTv1]
  split
  · exact List.length_set tv _ _
  · rfl

theorem icpKnotTimes_length (opts : Options) (prev_time curr_time : ℚ) :
    (icpKnotTimes opts prev_time curr_time).length = opts.num_extra_states + 1 := by
  simp [icpKnotTimes]

/-- Inversion of a successful `icpSetup`: the previous-knot check passed,
the indices are as assembled, the knot list is the (possibly `T_mi`
updated) old list followed by the new knots, and no enrolled state variable
is a `T_mi`. -/
theorem icpSetup_ok_inv (opts : Options) (index_frame : Nat)
    (T_i_r_gt prev_T_rm : AffineTf) (prev_time curr_time : ℚ) (tv : List TrajKnot)
    (asm : IcpAssembly)
    (h : icpSetup opts index_frame T_i_r_gt prev_T_rm prev_time curr_time tv = .ok asm) :
    ∃ lastKnot, tv.getLast? = some lastKnot ∧ lastKnot.time = prev_time
      ∧ asm.prev_idx = tv.length - 1
      ∧ asm.curr_idx = tv.length - 1 + opts.num_extra_states + 1
      ∧ asm.trajectory_vars
          = icpSetupTv1 opts T_i_r_gt prev_T_rm tv lastKnot
            ++ ((icpKnotTimes opts prev_time curr_time).map fun kt => ⟨kt, AffineTf.idt, true⟩)
      ∧ ∀ v ∈ asm.steam_state_vars, v.kind ≠ .T_mi := by
  rw [icpSetup] at h
  cases hlast : tv.getLast? with
  | none => rw [hlast] at h; exact absurd h (by simp)
  | some lastKnot =>
    rw [hlast] at h
    simp only [] at h
    by_cases htime : lastKnot.time ≠ prev_time
    · rw [if_pos htime] at h; exact absurd h (by simp)
    · rw [if_neg htime] at h
      have hasm := Except.ok.inj h
      refine ⟨lastKnot, rfl, by simpa using htime, ?_, ?_, ?_, ?_⟩
      · rw [← hasm]
      · rw [← hasm]
      · rw [← hasm]
        exact newKnotStep_fold_knots opts lastKnot.T_mi _ _
      · rw [← hasm]
        exact newKnotStep_fold_vars opts lastKnot.T_mi _ _
          (icpSetupVars1_noTmi opts index_frame (tv.length - 1))

theorem getD_map_knot (kts : List ℚ) (n : Nat) (h : n < kts.length) :
    ((kts.map fun kt => (⟨kt, AffineTf.idt, true⟩ : TrajKnot)).getD n default).T_mi
        = AffineTf.idt
    ∧ ((kts.map fun kt => (⟨kt, AffineTf.idt, true⟩ : TrajKnot)).getD n default).T_mi_locked
        = true := by
  have hlt : n < (kts.map fun kt => (⟨kt, AffineTf.idt, true⟩ : TrajKnot)).length := by
    rw [List.length_map]; exact h
  rw [List.getD_eq_getElem _ _ hlt]
  rw [List.getElem_map]
  exact ⟨rfl, rfl⟩

/-- The enrollment fold never adds a `T_mi` variable group. -/
theorem swAddGroupsStep_fold_noTmi (opts : Options) :
    ∀ (idxs : List Nat) (acc : List (List VarRef)),
      (∀ g ∈ acc, ∀ v ∈ g, v.kind ≠ .T_mi) →
      ∀ g ∈ idxs.foldl (swAddGroupsStep opts) acc, ∀ v ∈ g, v.kind ≠ .T_mi := by
  intro idxs
  induction idxs with
  | nil => intro acc hacc; exact hacc
  | cons i rest ih =>
    intro acc hacc
    rw [List.foldl_cons]
    refine ih _ ?_
    intro g hg
    have hstep : swAddGroupsStep opts acc i
        = acc ++ ([[⟨i, .T_rm⟩, ⟨i, .w_mr_inr⟩, ⟨i, .dw_mr_inr⟩]]
            ++ (if opts.use_imu then [[⟨i, .imu_biases⟩]] else [])) := by
      simp [swAddGroupsStep, use_T_mi_gt]
    rw [hstep] at hg
    rcases List.mem_append.mp hg with hg | hg
    · exact hacc g hg
    · by_cases hui : opts.use_imu = true
      · rw [if_pos hui] at hg
        simp only [List.mem_append, List.mem_singleton] at hg
        rcases hg with rfl | rfl
        · intro v hv
          simp only [List.mem_cons, List.mem_singleton, List.not_mem_nil, or_false] at hv
          rcases hv with rfl | rfl | rfl <;> exact fun hc => by cases hc
        · intro v hv
          simp only [List.mem_singleton] at hv
          rcases hv with rfl
          exact fun hc => by cases hc
      · rw [if_neg hui, List.append_nil] at hg
        simp only [List.mem_singleton] at hg
        rcases hg with rfl
        intro v hv
        simp only [List.mem_cons, List.mem_singleton, List.not_mem_nil, or_false] at hv
        rcases hv with rfl | rfl | rfl <;> exact fun hc => by cases hc

/-- The `addStateVariable` call list assembled by the sliding-window
update, independent of the marginalization branch. -/
theorem icpSwUpdate_added (opts : Options) (index_frame : Nat) (asm : IcpAssembly)
    (frameEndTimes : List ℚ) (to_marg : Nat) :
    (icpSwUpdate opts index_frame asm frameEndTimes to_marg).added
      = (if index_frame = 1 then
          [[⟨asm.prev_idx, .T_rm⟩, ⟨asm.prev_idx, .w_mr_inr⟩, ⟨asm.prev_idx, .dw_mr_inr⟩]]
            ++ (if opts.use_imu then
                  [[⟨asm.prev_idx, .imu_biases⟩]]
                    ++ (if ¬ use_T_mi_gt then [[⟨asm.prev_idx, .T_mi⟩]] else [])
                else [])
        else [])
        ++ (List.range' (asm.prev_idx + 1) (asm.curr_idx - asm.prev_idx)).foldl
          (swAddGroupsStep opts) [] := by
  rw [icpSwUpdate]
  split <;> rfl

/-- C3 (amended): with `use_T_mi_gt` hard-coded `true` in `icp`: when
`use_imu` is enabled the previous knot's `T_mi` variable is overwritten
with the ground-truth-derived value and locked (when `use_imu` is disabled
it is left untouched — see the companion counterexample); every newly
created knot's `T_mi` is the identity transform and locked; and no `T_mi`
state variable, `T_mi` initial prior, or `T_mi` random-walk prior is ever
enrolled or added, regardless of `use_imu` and `T_mi_init_only`. -/
theorem icp_tmi_groundtruth_mode (opts : Options) (index_frame : Nat)
    (T_i_r_gt prev_T_rm : AffineTf) (prev_time curr_time : ℚ) (tv : List TrajKnot)
    (frameEndTimes : List ℚ) (to_marg : Nat) (asm : IcpAssembly)
    (h : icpSetup opts index_frame T_i_r_gt prev_T_rm prev_time curr_time tv = .ok asm) :
    (opts.use_imu = true →
      ∀ lk, tv.getLast? = some lk →
        asm.trajectory_vars.getD asm.prev_idx default
          = { lk with
              T_mi := se3UpdateByLog (computeTmiGt T_i_r_gt prev_T_rm) lk.T_mi,
              T_mi_locked := true })
    ∧ (∀ k, asm.prev_idx < k → k < asm.trajectory_vars.length →
        (asm.trajectory_vars.getD k default).T_mi = AffineTf.idt
          ∧ (asm.trajectory_vars.getD k default).T_mi_locked = true)
    ∧ (∀ v ∈ asm.steam_state_vars, v.kind ≠ .T_mi)
    ∧ icpTmiInitPrior opts index_frame asm.prev_idx = []
    ∧ icpTmiRwPriors opts asm.prev_idx asm.trajectory_vars.length = []
    ∧ ∀ g ∈ (icpSwUpdate opts index_frame asm frameEndTimes to_marg).added,
        ∀ v ∈ g, v.kind ≠ .T_mi := by
  obtain ⟨lastKnot, hlast, htime, hpidx, hcidx, htv, hvars⟩ :=
    icpSetup_ok_inv opts index_frame T_i_r_gt prev_T_rm prev_time curr_time tv asm h
  have htvne : tv ≠ [] := by
    intro h0; rw [h0] at hlast; exact absurd hlast (by simp)
  have htvlen : 0 < tv.length := List.length_pos.mpr htvne
  have hlen1 : (icpSetupTv1 opts T_i_r_gt prev_T_rm tv lastKnot).length = tv.length :=
    icpSetupTv1_length opts T_i_r_gt prev_T_rm tv lastKnot
  refine ⟨?_, ?_, hvars, ?_, ?_, ?_⟩
  · intro hui lk hlk
    rw [hlast] at hlk
    rcases Option.some.inj hlk with rfl
    rw [htv, hpidx]
    rw [List.getD_append _ _ _ _ (by rw [hlen1]; omega)]
    rw [icpSetupTv1, if_pos ⟨hui, rfl⟩]
    rw [List.getD_eq_getD_get?, List.get?_set_eq_of_lt _ (by omega)]
    rfl
  · intro k hk1 hk2
    rw [htv] at hk2 ⊢
    rw [hpidx] at hk1
    rw [List.getD_append_right _ _ _ _ (by rw [hlen1]; omega)]
    have hklt : k - (icpSetupTv1 opts T_i_r_gt prev_T_rm tv lastKnot).length
        < (icpKnotTimes opts prev_time curr_time).length := by
      rw [List.length_append, List.length_map] at hk2
      omega
    exact getD_map_knot _ _ hklt
  · simp [icpTmiInitPrior, use_T_mi_gt]
  · simp [icpTmiRwPriors, use_T_mi_gt]
  · rw [icpSwUpdate_added]
    intro g hg
    rcases List.mem_append.mp hg with hg | hg
    · by_cases hif : index_frame = 1
      · rw [if_pos hif] at hg
        by_cases hui : opts.use_imu = true
        · rw [if_pos hui, if_neg (by simp [use_T_mi_gt]), List.append_nil] at hg
          simp only [List.mem_append, List.mem_singleton] at hg
          rcases hg with rfl | rfl
          · intro v hv
            simp only [List.mem_cons, List.mem_singleton, List.not_mem_nil, or_false] at hv
            rcases hv with rfl | rfl | rfl <;> exact fun hc => by cases hc
          · intro v hv
            simp only [List.mem_singleton] at hv
            rcases hv with rfl
            exact fun hc => by cases hc
        · rw [if_neg hui, List.append_nil] at hg
          simp only [List.mem_singleton] at hg
          rcases hg with rfl
          intro v hv
          simp only [List.mem_cons, List.mem_singleton, List.not_mem_nil, or_false] at hv
          rcases hv with rfl | rfl | rfl <;> exact fun hc => by cases hc
      · rw [if_neg hif] at hg
        exact absurd hg (List.not_mem_nil g)
    · exact swAddGroupsStep_fold_noTmi opts _ [] (by simp) g hg

instance {ε : Type} {α : Type} [DecidableEq ε] [DecidableEq α] : DecidableEq (Except ε α) :=
  fun a b =>
    match a, b with
    | .error x, .error y =>
      if h : x = y then isTrue (by rw [h])
      else isFalse (by intro hc; cases hc; exact h rfl)
    | .ok x, .ok y =>
      if h : x = y then isTrue (by rw [h])
      else isFalse (by intro hc; cases hc; exact h rfl)
    | .error _, .ok _ => isFalse (by intro hc; cases hc)
    | .ok _, .error _ => isFalse (by intro hc; cases hc)

/-- A configuration with the IMU disabled (all other settings benign). -/
def optsC3 : Options := ⟨false, false, 0, 0, 1, 0, 1, 1, 10⟩

/-- A single previous knot at time 1 with an unlocked identity `T_mi`. -/
def tvC3 : List TrajKnot := [⟨1, AffineTf.idt, false⟩]

/-- C3 (counterexample): with `use_imu = false` the setup succeeds but the
previous knot's `T_mi` variable is neither overwritten nor locked — the
ground-truth overwrite of lines 481-484 sits inside `if (options_.use_imu)`
— refuting the claim that the overwrite happens for every frame regardless
of `use_imu`. -/
theorem icpSetup_prev_tmi_untouched :
    optsC3.use_imu = false
    ∧ icpSetup optsC3 1 AffineTf.idt AffineTf.idt 1 2 tvC3
        = .ok ⟨[⟨1, AffineTf.idt, false⟩, ⟨2, AffineTf.idt, true⟩],
               [⟨0, .T_rm⟩, ⟨0, .w_mr_inr⟩, ⟨0, .dw_mr_inr⟩,
                ⟨1, .T_rm⟩, ⟨1, .w_mr_inr⟩, ⟨1, .dw_mr_inr⟩], 0, 1⟩
    ∧ ([(⟨1, AffineTf.idt, false⟩ : TrajKnot), ⟨2, AffineTf.idt, true⟩].getD 0
        default).T_mi_locked = false
    ∧ [(⟨1, AffineTf.idt, false⟩ : TrajKnot), ⟨2, AffineTf.idt, true⟩].getD 0 default
        = tvC3.getD 0 default := by
  refine ⟨rfl, by decide, rfl, rfl⟩

/-- The same configuration with the IMU enabled. -/
def optsC3i : Options := ⟨true, false, 0, 0, 1, 0, 1, 1, 10⟩

/-- The assembly produced by `icpSetup` under `optsC3i` on `tvC3`: the
previous knot's `T_mi` is overwritten (the ground-truth-derived value at
identity inputs is the identity) and locked, the new knot carries a locked
identity `T_mi`, and biases are enrolled but no `T_mi`. -/
def asmC3i : IcpAssembly :=
  ⟨[⟨1, AffineTf.idt, true⟩, ⟨2, AffineTf.idt, true⟩],
   [⟨0, .T_rm⟩, ⟨0, .w_mr_inr⟩, ⟨0, .dw_mr_inr⟩, ⟨0, .imu_biases⟩,
    ⟨1, .T_rm⟩, ⟨1, .w_mr_inr⟩, ⟨1, .dw_mr_inr⟩, ⟨1, .imu_biases⟩], 0, 1⟩

theorem icp_tmi_groundtruth_mode_witness :
    icpSetup optsC3i 1 AffineTf.idt AffineTf.idt 1 2 tvC3 = .ok asmC3i
    ∧ asmC3i.trajectory_vars.getD asmC3i.prev_idx default
        = { time := 1,
            T_mi := se3UpdateByLog (computeTmiGt AffineTf.idt AffineTf.idt) AffineTf.idt,
            T_mi_locked := true }
    ∧ (∀ v ∈ asmC3i.steam_state_vars, v.kind ≠ .T_mi)
    ∧ icpTmiInitPrior optsC3i 1 asmC3i.prev_idx = []
    ∧ icpTmiRwPriors optsC3i asmC3i.prev_idx asmC3i.trajectory_vars.length = [] := by
  have hset : icpSetup optsC3i 1 AffineTf.idt AffineTf.idt 1 2 tvC3 = .ok asmC3i := by
    norm_num [icpSetup, icpSetupTv1, icpSetupVars1, icpKnotTimes, newKnotStep, use_T_mi_gt,
      se3UpdateByLog, computeTmiGt, AffineTf.mul, AffineTf.inv, AffineTf.zeroTrans,
      AffineTf.idt, M3.mulM, M3.mulVec, M3.inv, M3.det, M3.idm, M3.col0, M3.col1, M3.col2,
      V3.dot, V3.smul, V3.add_def, V3.zero_x, V3.zero_y, V3.zero_z, V3.mk_zero,
      optsC3i, tvC3, asmC3i]
  have hmain := icp_tmi_groundtruth_mode optsC3i 1 AffineTf.idt AffineTf.idt 1 2 tvC3
    [1, 2] 1 asmC3i hset
  refine ⟨hset, ?_, hmain.2.2.1, hmain.2.2.2.1, hmain.2.2.2.2.1⟩
  exact hmain.1 rfl ⟨1, AffineTf.idt, false⟩ rfl

theorem icpSetup_ok_length (opts : Options) (index_frame : Nat)
    (T_i_r_gt prev_T_rm : AffineTf) (prev_time curr_time : ℚ) (tv : List TrajKnot)
    (asm : IcpAssembly)
    (h : icpSetup opts index_frame T_i_r_gt prev_T_rm prev_time curr_time tv = .ok asm) :
    asm.trajectory_vars.length = tv.length + opts.num_extra_states + 1 := by
  obtain ⟨lk, _, _, _, _, htv, _⟩ :=
    icpSetup_ok_inv opts index_frame T_i_r_gt prev_T_rm prev_time curr_time tv asm h
  rw [htv, List.length_append, List.length_map, icpSetupTv1_length, icpKnotTimes_length]
  omega

/-- Inversion of a successful `icpModel`: the setup succeeded, the returned
knot list is the assembled one, the marginalization pointer is the one the
sliding-window update computed, and the soft flag is the loop's. -/
theorem icpModel_ok_inv (opts : Options) (index_frame : Nat) (frameEndTimes : List ℚ)
    (evalTime : ℚ) (T_i_r_gt prev_T_rm : AffineTf) (tv : List TrajKnot) (to_marg : Nat)
    (outs : Nat → IterOut) (imu : List (ℚ × V3)) (r_imu_ang : V3) (swCounts : Nat × Nat)
    (outc : IcpOutcome)
    (h : icpModel opts index_frame frameEndTimes evalTime T_i_r_gt prev_T_rm tv to_marg
        outs imu r_imu_ang swCounts = .ok outc) :
    ∃ asm, icpSetup opts index_frame T_i_r_gt prev_T_rm
        (frameEndTimes.getD (index_frame - 1) 0) (frameEndTimes.getD index_frame 0) tv
        = .ok asm
      ∧ outc.trajectory_vars = asm.trajectory_vars
      ∧ outc.to_marginalize
          = (icpSwUpdate opts index_frame asm frameEndTimes to_marg).to_marginalize
      ∧ outc.success = (icpOuterLoop opts index_frame outs).icp_success := by
  rw [icpModel] at h
  cases hset : icpSetup opts index_frame T_i_r_gt prev_T_rm
      (frameEndTimes.getD (index_frame - 1) 0) (frameEndTimes.getD index_frame 0) tv with
  | error e => rw [hset] at h; exact absurd h (by simp)
  | ok asm =>
    rw [hset] at h
    simp only [] at h
    refine ⟨asm, rfl, ?_⟩
    cases himu : (if opts.use_imu then
        processImuData (asm.trajectory_vars.map TrajKnot.time) asm.prev_idx r_imu_ang imu
        else .ok []) with
    | error e => rw [himu] at h; exact absurd h (by simp)
    | ok costs =>
      rw [himu] at h
      simp only [] at h
      cases hgate : finalSlidingWindowSolve swCounts.1 swCounts.2 with
      | error e => rw [hgate] at h; exact absurd h (by simp)
      | ok u =>
        rw [hgate] at h
        simp only [] at h
        cases hmid : (if opts.use_imu then
            (findMidBracket (asm.trajectory_vars.map TrajKnot.time) asm.prev_idx
              evalTime).map fun _ => 0
            else .ok 0) with
        | error e => rw [hmid] at h; exact absurd h (by simp)
        | ok w =>
          rw [hmid] at h
          simp only [] at h
          have hout := Except.ok.inj h
          rw [← hout]
          exact ⟨rfl, rfl, rfl⟩

/-- C2 (amended): whenever a frame's registration aborts with
`success = false`, the voxel map is left exactly as it was (the map update
of lines 263-267 is skipped by the early return at line 216), but the
frame's `num_extra_states + 1` new knots have already been appended to
`trajectory_vars_` (with the previous knot possibly updated in place), and
the marginalization pointer has already been set by the marginalization
step that ran before the abort. -/
theorem registerFrame_abort_effects (MapT : Type) (opts : Options) (updMap : MapT → MapT)
    (eng : Engine MapT) (cbt cet evt : ℚ) (T_i_r_gt prev_T_rm : AffineTf)
    (outs : Nat → IterOut) (imu : List (ℚ × V3)) (r_imu_ang : V3) (swc : Nat × Nat)
    (eng' : Engine MapT)
    (h : registerFrameModel MapT opts updMap eng cbt cet evt T_i_r_gt prev_T_rm outs imu
        r_imu_ang swc = .ok (false, eng')) :
    eng'.map = eng.map
    ∧ eng'.trajectory_vars.length
        = eng.trajectory_vars.length + opts.num_extra_states + 1
    ∧ eng'.frameEndTimes = eng.frameEndTimes ++ [cet]
    ∧ ∃ asm, icpSetup opts eng.frameEndTimes.length T_i_r_gt prev_T_rm
          ((eng.frameEndTimes ++ [cet]).getD (eng.frameEndTimes.length - 1) 0)
          ((eng.frameEndTimes ++ [cet]).getD eng.frameEndTimes.length 0)
          eng.trajectory_vars = .ok asm
        ∧ eng'.trajectory_vars = asm.trajectory_vars
        ∧ eng'.to_marginalize
            = (icpSwUpdate opts eng.frameEndTimes.length asm (eng.frameEndTimes ++ [cet])
                eng.to_marginalize).to_marginalize := by
  rw [registerFrameModel] at h
  by_cases hidx : eng.frameEndTimes.length = 0
  · rw [if_pos hidx] at h
    have := Except.ok.inj h
    exact absurd (congrArg Prod.fst this) (by simp)
  · rw [if_neg hidx] at h
    cases hicp : icpModel opts eng.frameEndTimes.length (eng.frameEndTimes ++ [cet]) evt
        T_i_r_gt prev_T_rm eng.trajectory_vars eng.to_marginalize outs imu r_imu_ang swc with
    | error e => rw [hicp] at h; exact absurd h (by simp)
    | ok outc =>
      rw [hicp] at h
      simp only [] at h
      by_cases hsucc : outc.success = true
      · rw [if_pos hsucc] at h
        have := Except.ok.inj h
        exact absurd (congrArg Prod.fst this) (by simp)
      · rw [if_neg hsucc] at h
        have heng := congrArg Prod.snd (Except.ok.inj h)
        simp only [] at heng
        obtain ⟨asm, hset, htv, htm, _⟩ :=
          icpModel_ok_inv opts eng.frameEndTimes.length (eng.frameEndTimes ++ [cet]) evt
            T_i_r_gt prev_T_rm eng.trajectory_vars eng.to_marginalize outs imu r_imu_ang
            swc outc hicp
        have hlen := icpSetup_ok_length opts eng.frameEndTimes.length T_i_r_gt prev_T_rm
          ((eng.frameEndTimes ++ [cet]).getD (eng.frameEndTimes.length - 1) 0)
          ((eng.frameEndTimes ++ [cet]).getD eng.frameEndTimes.length 0)
          eng.trajectory_vars asm hset
        rw [← heng]
        refine ⟨rfl, ?_, rfl, asm, hset, ?_, ?_⟩
        · simp only []
          rw [htv, hlen]
        · exact htv
        · exact htm

/-- A configuration requiring 5 accepted keypoints, with no IMU, no extra
states and no point-adding delay. -/
def optsC2 : Options := ⟨false, false, 0, 0, 1, 5, 1, 1, 10⟩

/-- Engine state after frame 0: one frame ending at time 1, its two seeded
knots, the first knot excluded from the filter, and a map value 0. -/
def engC2 : Engine Nat := ⟨[1], [⟨0, AffineTf.idt, false⟩, ⟨1, AffineTf.idt, false⟩], 1, 0⟩

/-- An association oracle that never accepts a keypoint. -/
def outsC2 : Nat → IterOut := fun _ => ⟨0, 0, 0⟩

/-- C2 (counterexample): a frame-1 registration that aborts (0 accepted
keypoints < 5) leaves the map at its old value, but `trajectory_vars_` has
grown from 2 to 3 knots and `to_marginalize_` has advanced from 1 to 2 —
refuting the claim that an abort leaves the knot list exactly as it was
and does not advance the marginalization pointer. -/
theorem registerFrame_abort_counterexample :
    registerFrameModel Nat optsC2 Nat.succ engC2 0 2 2 AffineTf.idt AffineTf.idt outsC2 []
        ⟨1, 1, 1⟩ (3, 5)
      = .ok (false,
          ⟨[1, 2],
           [⟨0, AffineTf.idt, false⟩, ⟨1, AffineTf.idt, false⟩, ⟨2, AffineTf.idt, true⟩],
           2, 0⟩)
    ∧ ([(⟨0, AffineTf.idt, false⟩ : TrajKnot), ⟨1, AffineTf.idt, false⟩,
        ⟨2, AffineTf.idt, true⟩] ≠ engC2.trajectory_vars)
    ∧ (2 : Nat) ≠ engC2.to_marginalize
    ∧ (0 : Nat) = engC2.map := by
  refine ⟨by decide, by decide, by decide, rfl⟩

theorem registerFrame_abort_effects_witness :
    (registerFrameModel Nat optsC2 Nat.succ engC2 0 2 2 AffineTf.idt AffineTf.idt outsC2 []
        ⟨1, 1, 1⟩ (3, 5)
      = .ok (false,
          ⟨[1, 2],
           [⟨0, AffineTf.idt, false⟩, ⟨1, AffineTf.idt, false⟩, ⟨2, AffineTf.idt, true⟩],
           2, 0⟩))
    ∧ ((⟨[1, 2],
          [⟨0, AffineTf.idt, false⟩, ⟨1, AffineTf.idt, false⟩, ⟨2, AffineTf.idt, true⟩],
          2, 0⟩ : Engine Nat).map = engC2.map
      ∧ (⟨[1, 2],
          [⟨0, AffineTf.idt, false⟩, ⟨1, AffineTf.idt, false⟩, ⟨2, AffineTf.idt, true⟩],
          2, 0⟩ : Engine Nat).trajectory_vars.length
            = engC2.trajectory_vars.length + optsC2.num_extra_states + 1
      ∧ (⟨[1, 2],
          [⟨0, AffineTf.idt, false⟩, ⟨1, AffineTf.idt, false⟩, ⟨2, AffineTf.idt, true⟩],
          2, 0⟩ : Engine Nat).frameEndTimes = engC2.frameEndTimes ++ [2]) :=
  ⟨by decide, by
    have h := registerFrame_abort_effects Nat optsC2 Nat.succ engC2 0 2 2 AffineTf.idt
      AffineTf.idt outsC2 [] ⟨1, 1, 1⟩ (3, 5)
      ⟨[1, 2], [⟨0, AffineTf.idt, false⟩, ⟨1, AffineTf.idt, false⟩, ⟨2, AffineTf.idt, true⟩],
       2, 0⟩ (by decide)
    exact ⟨h.1, h.2.1, h.2.2.1⟩⟩

/-- If every iteration accepts enough keypoints, the outer loop runs its
full iteration budget: no other statement ends it. -/
theorem icpOuterLoopGo_runs_all (opts : Options) (idx : Nat) (outs : Nat → IterOut)
    (hkp : ∀ i, opts.min_number_keypoints ≤ (outs i).number_keypoints_used) :
    ∀ fuel iter conv,
      (icpOuterLoopGo opts idx outs iter fuel conv).iters_executed = iter + fuel
      ∧ (icpOuterLoopGo opts idx outs iter fuel conv).icp_success = true := by
  intro fuel
  induction fuel with
  | zero => intro iter conv; exact ⟨rfl, rfl⟩
  | succ n ih =>
    intro iter conv
    simp only [icpOuterLoopGo]
    rw [if_neg (Nat.not_lt.mpr (hkp iter))]
    refine ⟨?_, (ih (iter + 1) _).2⟩
    rw [(ih (iter + 1) _).1]
    omega

/-- A 3-iteration configuration with no keypoint gate and unit thresholds. -/
def optsC1 : Options := ⟨false, false, 0, 0, 3, 0, 1, 1, 10⟩

/-- An oracle whose solve leaves zero begin+end pose change and accepts
five keypoints at every iteration. -/
def outsC1 : Nat → IterOut := fun _ => ⟨5, 0, 0⟩

/-- C1 (code bug): the convergence test of lines 983-988 never stops the
outer loop — its body only emits a debug log, there is no `break`.  With
`num_iters_icp = 3`, frame index 2 and an oracle whose summed begin+end
deltas are below both thresholds from the very first iteration (with
enough keypoints), the convergence condition holds at iteration 0 — the
model records `first_converged = some 0` — yet all three outer iterations
execute. -/
theorem icpOuterLoop_converged_no_stop :
    (icpOuterLoop optsC1 2 outsC1).first_converged = some 0
    ∧ (icpOuterLoop optsC1 2 outsC1).iters_executed = 3
    ∧ (icpOuterLoop optsC1 2 outsC1).icp_success = true
    ∧ optsC1.num_iters_icp = 3
    ∧ (2 > 1 ∧ (outsC1 0).diff_rot < optsC1.threshold_orientation_norm
        ∧ (outsC1 0).diff_trans < optsC1.threshold_translation_norm) := by
  refine ⟨by decide, by decide, by decide, rfl,
    by norm_num, by norm_num [outsC1, optsC1], by norm_num [outsC1, optsC1]⟩

end SteamIcp
